import Mathlib

/-!
CoreDNS cache entries (plugin/cache/item.go).

A shallow embedding of `newItem`, `item.toMsg`, `item.ttl` and `isDNSSEC`,
with the parts of `github.com/miekg/dns` and of Go's `time` package they rely on:
resource records and messages, instants and durations, and the binary64
arithmetic behind `Duration.Seconds`.
-/

namespace Cache

/-! ## Resource records and messages (github.com/miekg/dns) -/

/-- A resource record: the fields of `dns.RR_Header` and the record data, kept opaque.
`Rrtype`, `Class` and `Rdlength` are uint16 values, `Ttl` a uint32 value. -/
structure RR where
  Name : String
  Rrtype : Nat
  Class : Nat
  Ttl : Nat
  Rdlength : Nat
  rdata : List Nat
deriving DecidableEq

/-- Record type A (`dns.TypeA`). -/
def TypeA : Nat := 1
/-- Record type SIG (`dns.TypeSIG`). -/
def TypeSIG : Nat := 24
/-- Record type OPT (`dns.TypeOPT`). -/
def TypeOPT : Nat := 41
/-- Record type DS (`dns.TypeDS`). -/
def TypeDS : Nat := 43
/-- Record type RRSIG (`dns.TypeRRSIG`). -/
def TypeRRSIG : Nat := 46
/-- Record type NSEC (`dns.TypeNSEC`). -/
def TypeNSEC : Nat := 47
/-- Record type DNSKEY (`dns.TypeDNSKEY`). -/
def TypeDNSKEY : Nat := 48
/-- Record type NSEC3 (`dns.TypeNSEC3`). -/
def TypeNSEC3 : Nat := 50

/-- Response code `dns.RcodeSuccess`. -/
def RcodeSuccess : Int := 0
/-- Opcode `dns.OpcodeQuery`. -/
def OpcodeQuery : Nat := 0

/-- One entry of the question section (`dns.Question`). -/
structure Question where
  Name : String
  Qtype : Nat
  Qclass : Nat
deriving DecidableEq

/-- A DNS message (`dns.Msg`): the header bits of `dns.MsgHdr` and the four sections. -/
structure Msg where
  Id : Nat
  Response : Bool
  Opcode : Nat
  Authoritative : Bool
  Truncated : Bool
  RecursionDesired : Bool
  RecursionAvailable : Bool
  Zero : Bool
  AuthenticatedData : Bool
  CheckingDisabled : Bool
  Rcode : Int
  Compress : Bool
  Question : List Question
  Answer : List RR
  Ns : List RR
  Extra : List RR
deriving DecidableEq

/-- The zero message, `new(dns.Msg)`. -/
def Msg.zero : Msg :=
  { Id := 0, Response := false, Opcode := 0, Authoritative := false, Truncated := false,
    RecursionDesired := false, RecursionAvailable := false, Zero := false,
    AuthenticatedData := false, CheckingDisabled := false, Rcode := 0, Compress := false,
    Question := [], Answer := [], Ns := [], Extra := [] }

/-- The reply shell `dns.SetReply(request)`: the id, opcode and first question of the request are
echoed, the response bit is set and the response code is success. -/
def Msg.SetReply (dns request : Msg) : Msg :=
  let dns := { dns with Id := request.Id, Response := true, Opcode := request.Opcode }
  let dns :=
    if dns.Opcode = OpcodeQuery then
      { dns with RecursionDesired := request.RecursionDesired,
                 CheckingDisabled := request.CheckingDisabled }
    else dns
  let dns := { dns with Rcode := RcodeSuccess }
  match request.Question with
  | [] => dns
  | q :: _ => { dns with Question := [q] }

/-- The deep copy `dns.Copy(r)`: a fresh record equal to `r` in every field. -/
def Copy (r : RR) : RR := r

/-- The assignment `r.Header().Ttl = ttl` on a record. -/
def RR.setTtl (r : RR) (ttl : Nat) : RR := { r with Ttl := ttl }

/-! ## Slices

A destination slice `make([]dns.RR, n)` holds `n` nil interface values; a slot is `none`
until a record is stored in it. Indexing past the length and re-slicing past the capacity
panic, which the embedding renders as `none`. -/

/-- The allocation `make([]dns.RR, n)`. -/
def makeSlice (n : Nat) : List (Option RR) := List.replicate n none

/-- The indexed store `s[j] = r`, which panics when `j` is out of range. -/
def storeAt (s : List (Option RR)) (j : Nat) (r : RR) : Option (List (Option RR)) :=
  if j < s.length then some (s.set j (some r)) else none

/-- The re-slice `s[:j]`, which panics when `j` exceeds the capacity. -/
def resliceTo (s : List (Option RR)) (j : Nat) : Option (List (Option RR)) :=
  if j ≤ s.length then some (s.take j) else none

/-- The records of a slice none of whose slots is nil; `none` when a nil slot is left. -/
def records : List (Option RR) → Option (List RR)
  | [] => some []
  | none :: _ => none
  | some r :: rest => (records rest).map (fun rs => r :: rs)

/-- The compaction loop shared by `newItem` and `toMsg`:
`for _, r := range src { if skip(r) { continue }; dst[j] = f(r); j++ }`,
giving the destination and the final `j`. -/
def compactLoop (skip : RR → Bool) (f : RR → RR) :
    List RR → List (Option RR) → Nat → Option (List (Option RR) × Nat)
  | [], dst, j => some (dst, j)
  | r :: rest, dst, j =>
    if skip r then compactLoop skip f rest dst j
    else
      match storeAt dst j (f r) with
      | none => none
      | some dst1 => compactLoop skip f rest dst1 (j + 1)

/-- A whole compaction: allocate `len(src)` slots, run the loop from `j = 0`, re-slice to `[:j]`. -/
def compact (skip : RR → Bool) (f : RR → RR) (src : List RR) : Option (List RR) :=
  match compactLoop skip f src (makeSlice src.length) 0 with
  | none => none
  | some (dst, j) =>
    match resliceTo dst j with
    | none => none
    | some s => records s

/-! ## Binary64 arithmetic

`Duration.Seconds` returns a float64. The finite binary64 values are modelled exactly, as a
sign, a mantissa and a binary exponent, and every operation rounds its exact result to 53
significant bits, to nearest with ties to even. The exponent range is not modelled: the values
that arise from a duration have magnitude zero or between 1e-9 and 2^34, well inside the normal
range of binary64. -/

/-- Floor of the binary logarithm by repeated halving, with `fuel` steps allowed. -/
def log2Fuel : Nat → Nat → Nat
  | 0, _ => 0
  | fuel + 1, n => if 2 ≤ n then log2Fuel fuel (n / 2) + 1 else 0

/-- Floor of the binary logarithm of a positive number. -/
def floorLog2 (n : Nat) : Nat := log2Fuel n n

/-- Numerator and denominator of the fraction `(n / d) / 2 ^ e`. -/
def scaleBy (n d : Nat) (e : Int) : Nat × Nat :=
  if 0 ≤ e then (n, d * 2 ^ e.toNat) else (n * 2 ^ (-e).toNat, d)

/-- The integer nearest to `n / d`, the even one of two equally near. -/
def roundHalfEven (n d : Nat) : Nat :=
  let q := n / d
  let r := n % d
  if 2 * r < d then q
  else if d < 2 * r then q + 1
  else if q % 2 = 0 then q else q + 1

/-- A finite binary64 value: `mant * 2 ^ exp`, negated when `neg`. -/
structure F64 where
  neg : Bool
  mant : Nat
  exp : Int
deriving DecidableEq

/-- The binary64 value nearest to the fraction `n / d` (with `d` positive), with the given sign:
the exponent `p` has `2 ^ p ≤ n / d < 2 ^ (p + 1)` and the mantissa is `n / d` in units of
`2 ^ (p - 52)`, rounded to an integer. -/
def roundFrac (neg : Bool) (n d : Nat) : F64 :=
  if n = 0 then ⟨neg, 0, 0⟩
  else
    let c : Int := (floorLog2 n : Int) - (floorLog2 d : Int)
    let s := scaleBy n d c
    let p : Int := if s.2 ≤ s.1 then c else c - 1
    let t := scaleBy n d (p - 52)
    ⟨neg, roundHalfEven t.1 t.2, p - 52⟩

/-- The conversion `float64(z)` of an integer. -/
def F64.ofInt (z : Int) : F64 := roundFrac (decide (z < 0)) z.natAbs 1

/-- The quotient `a / b` of binary64 values, `b` not zero. -/
def F64.div (a b : F64) : F64 :=
  let t := scaleBy a.mant b.mant (b.exp - a.exp)
  roundFrac (xor a.neg b.neg) t.1 t.2

/-- The signed value of `a` in units of `2 ^ e`, for `e ≤ a.exp`. -/
def F64.signedMant (a : F64) (e : Int) : Int :=
  let m : Int := (a.mant * 2 ^ (a.exp - e).toNat : Nat)
  if a.neg then -m else m

/-- The sum `a + b` of binary64 values. -/
def F64.add (a b : F64) : F64 :=
  let e := min a.exp b.exp
  let s := a.signedMant e + b.signedMant e
  let t := scaleBy s.natAbs 1 (-e)
  roundFrac (if s = 0 then a.neg && b.neg else decide (s < 0)) t.1 t.2

/-- The conversion `int(f)` of a binary64 value: the fraction is discarded (truncation toward
zero). Values outside the int64 range do not arise from a duration. -/
def F64.toInt (a : F64) : Int :=
  let t := scaleBy a.mant 1 (-a.exp)
  let k : Int := (t.1 / t.2 : Nat)
  if a.neg then -k else k

/-! ## Instants and durations (package time) -/

/-- The duration `time.Second`, in nanoseconds. -/
def Second : Int := 1000000000
/-- The smallest `time.Duration`, an int64 count of nanoseconds. -/
def minDuration : Int := -(2 ^ 63)
/-- The largest `time.Duration`. -/
def maxDuration : Int := 2 ^ 63 - 1

/-- A `time.Time` without monotonic clock reading: an instant in nanoseconds since the Unix
epoch and a location (0 is UTC). -/
structure Time where
  nanos : Int
  loc : Nat
deriving DecidableEq

/-- `Time.UTC`: the same instant with the location set to UTC. -/
def Time.UTC (t : Time) : Time := { t with loc := 0 }

/-- `Time.Sub`: the duration `t - u`, saturated to the range of `time.Duration`. -/
def Time.Sub (t u : Time) : Int :=
  let d := t.nanos - u.nanos
  if d < minDuration then minDuration else if maxDuration < d then maxDuration else d

/-- `Duration.Seconds`: the duration as a float64 number of seconds,
`float64(d / Second) + float64(d % Second) / 1e9`, with Go's truncating `/` and `%`. -/
def Duration.Seconds (d : Int) : F64 :=
  let sec := Int.tdiv d Second
  let nsec := Int.tmod d Second
  F64.add (F64.ofInt sec) (F64.div (F64.ofInt nsec) (F64.ofInt 1000000000))

/-- The conversion `uint32(x)` of an integer: the low 32 bits. -/
def uint32 (x : Int) : Nat := (x % 2 ^ 32).toNat

/-! ## plugin/cache/item.go -/

/-- Modelled from the spec: the per-entry frequency counter `freq.Freq` (plugin/cache/freq is
not part of the sources); construction only allocates its zero value. -/
structure Freq where
  hits : Int
  last : Int
deriving DecidableEq

/-- The cache entry `item`. -/
structure item where
  Rcode : Int
  AuthenticatedData : Bool
  RecursionAvailable : Bool
  Answer : List RR
  Ns : List RR
  Extra : List RR
  origTTL : Nat
  stored : Time
  Freq : Freq
deriving DecidableEq

/-- The entry built by `newItem(m, now, d)`; `none` stands for a panic of the compaction loop.
The conversion `uint32(d.Seconds())` keeps the low 32 bits of the truncated seconds (what amd64
does; Go leaves it implementation-dependent for values outside the uint32 range). -/
def newItem (m : Msg) (now : Time) (d : Int) : Option item :=
  match compact (fun e => e.Rrtype == TypeOPT) (fun e => e) m.Extra with
  | none => none
  | some extra =>
    some { Rcode := m.Rcode
           AuthenticatedData := m.AuthenticatedData
           RecursionAvailable := m.RecursionAvailable
           Answer := m.Answer
           Ns := m.Ns
           Extra := extra
           origTTL := uint32 (Duration.Seconds d).toInt
           stored := now.UTC
           Freq := { hits := 0, last := 0 } }

/-- The remaining lifetime `i.ttl(now)`, in seconds:
`int(i.origTTL) - int(now.UTC().Sub(i.stored).Seconds())`. -/
def item.ttl (i : item) (now : Time) : Int :=
  (i.origTTL : Int) - (Duration.Seconds (now.UTC.Sub i.stored)).toInt

/-- The predicate `isDNSSEC(r)`, a switch on the record type. -/
def isDNSSEC (r : RR) : Bool :=
  if r.Rrtype = TypeNSEC then true
  else if r.Rrtype = TypeNSEC3 then true
  else if r.Rrtype = TypeDS then true
  else if r.Rrtype = TypeRRSIG then true
  else if r.Rrtype = TypeSIG then true
  else false

/-- The reply `i.toMsg(m, now, do)`; `none` stands for a panic of a compaction loop. -/
def item.toMsg (i : item) (m : Msg) (now : Time) (doBit : Bool) : Option Msg :=
  let m1 := Msg.zero.SetReply m
  let m1 := { m1 with Authoritative := true }
  let m1 := { m1 with AuthenticatedData := i.AuthenticatedData }
  let m1 := if !doBit then { m1 with AuthenticatedData := false } else m1
  let m1 := { m1 with RecursionAvailable := i.RecursionAvailable }
  let m1 := { m1 with Rcode := i.Rcode }
  let ttl := uint32 (i.ttl now)
  let skip := fun r => !doBit && isDNSSEC r
  let copy := fun r => (Copy r).setTtl ttl
  match compact skip copy i.Answer with
  | none => none
  | some answer =>
    match compact skip copy i.Ns with
    | none => none
    | some ns =>
      match compact skip copy i.Extra with
      | none => none
      | some extra => some { m1 with Answer := answer, Ns := ns, Extra := extra }

/-- One rendered section: the records that are not skipped, each copied with the new TTL. -/
def renderSection (doBit : Bool) (ttl : Nat) (l : List RR) : List RR :=
  (l.filter (fun r => !(!doBit && isDNSSEC r))).map (fun r => (Copy r).setTtl ttl)

/-! ## Specification vocabulary for the binary64 model -/

/-- Magnitude of a binary64 value. -/
def F64.mag (a : F64) : ℚ := (a.mant : ℚ) * (2 : ℚ) ^ a.exp

/-- The value `a` is a rounding of the non-negative rational `x`: zero for zero, and otherwise
the exponent brackets `x` and the mantissa is within one half of `x` in units of `2 ^ exp`. -/
def IsRounded (x : ℚ) (a : F64) : Prop :=
  (x = 0 ∧ a.mant = 0) ∨
  (0 < x ∧ (2 : ℚ) ^ (a.exp + 52) ≤ x ∧ x < (2 : ℚ) ^ (a.exp + 53) ∧
    |(a.mant : ℚ) - x / (2 : ℚ) ^ a.exp| ≤ 1 / 2)

/-! ## Example data -/

/-- An address record with a record TTL of 300 seconds. -/
def exampleA : RR :=
  { Name := "example.org.", Rrtype := TypeA, Class := 1, Ttl := 300, Rdlength := 4,
    rdata := [192, 0, 2, 1] }

/-- An EDNS0 pseudo-record. -/
def exampleOPT : RR :=
  { Name := ".", Rrtype := TypeOPT, Class := 4096, Ttl := 0, Rdlength := 0, rdata := [] }

/-- An NSEC record. -/
def exampleNSEC : RR :=
  { Name := "example.org.", Rrtype := TypeNSEC, Class := 1, Ttl := 3600, Rdlength := 2,
    rdata := [0, 1] }

/-- A DNSKEY record. -/
def exampleDNSKEY : RR :=
  { Name := "example.org.", Rrtype := TypeDNSKEY, Class := 1, Ttl := 3600, Rdlength := 4,
    rdata := [1, 1, 3, 8] }

/-- A query for the address of example.org. -/
def exampleQuery : Msg :=
  { Msg.zero with Id := 4711, RecursionDesired := true,
                  Question := [{ Name := "example.org.", Qtype := TypeA, Qclass := 1 }] }

/-- An upstream response with an answer, a DNSSEC authority section and an additional section
that starts with an OPT record. -/
def exampleResponse : Msg :=
  { Msg.zero with Id := 17, Response := true, RecursionAvailable := true,
                  AuthenticatedData := true,
                  Question := [{ Name := "example.org.", Qtype := TypeA, Qclass := 1 }],
                  Answer := [exampleA, exampleDNSKEY],
                  Ns := [exampleNSEC],
                  Extra := [exampleOPT, exampleA] }

/-- An entry with a lifetime of `origTTL` seconds, stored at instant `stored` (nanoseconds). -/
def exampleItem (origTTL : Nat) (stored : Int) : item :=
  { Rcode := 0, AuthenticatedData := true, RecursionAvailable := true,
    Answer := [exampleA, exampleDNSKEY], Ns := [exampleNSEC], Extra := [exampleA],
    origTTL := origTTL, stored := { nanos := stored, loc := 0 },
    Freq := { hits := 0, last := 0 } }

/-- The TTLs carried by the records of the three sections of a message. -/
def Msg.ttls (m : Msg) : List Nat := (m.Answer ++ m.Ns ++ m.Extra).map (fun r => r.Ttl)

/-- The rounding `a` of `x` breaks a tie toward the even mantissa: when `x` lies half way between
two multiples of `2 ^ exp`, the mantissa of `a` is even. -/
def IsTieEven (x : ℚ) (a : F64) : Prop :=
  |(a.mant : ℚ) - x / (2 : ℚ) ^ a.exp| = 1 / 2 → a.mant % 2 = 0

/-! ## Records behind pointers

A `dns.RR` is a pointer to a record. To speak about which records `toMsg` writes, the records
live in a store, a list of cells addressed by their index, and the sections of an entry and of a
reply are slices of addresses. -/

/-- The cache entry `item` with its sections as slices of record addresses. -/
structure itemRef where
  Rcode : Int
  AuthenticatedData : Bool
  RecursionAvailable : Bool
  Answer : List Nat
  Ns : List Nat
  Extra : List Nat
  origTTL : Nat
  stored : Time
deriving DecidableEq

/-- A reply with its sections as slices of record addresses; `hdr` holds the header and the
question section. -/
structure MsgRef where
  hdr : Msg
  Answer : List Nat
  Ns : List Nat
  Extra : List Nat
deriving DecidableEq

/-- The records a slice of addresses points to; `none` when an address is not allocated. -/
def derefAll (st : List RR) : List Nat → Option (List RR)
  | [] => some []
  | p :: ps =>
    match st[p]?, derefAll st ps with
    | some r, some rs => some (r :: rs)
    | _, _ => none

/-- The entry an `itemRef` denotes in a store. -/
def itemRef.view (i : itemRef) (st : List RR) : Option item :=
  match derefAll st i.Answer, derefAll st i.Ns, derefAll st i.Extra with
  | some a, some n, some e =>
    some { Rcode := i.Rcode, AuthenticatedData := i.AuthenticatedData,
           RecursionAvailable := i.RecursionAvailable, Answer := a, Ns := n, Extra := e,
           origTTL := i.origTTL, stored := i.stored, Freq := { hits := 0, last := 0 } }
  | _, _, _ => none

/-- The message a `MsgRef` denotes in a store. -/
def MsgRef.view (m : MsgRef) (st : List RR) : Option Msg :=
  match derefAll st m.Answer, derefAll st m.Ns, derefAll st m.Extra with
  | some a, some n, some e => some { m.hdr with Answer := a, Ns := n, Extra := e }
  | _, _, _ => none

/-- The allocation done by `dns.Copy(r)`: a fresh cell holding a copy of `r`, and its address. -/
def allocCopy (st : List RR) (r : RR) : List RR × Nat := (st ++ [Copy r], st.length)

/-- The assignment `p.Header().Ttl = ttl` through the pointer `p`; a nil pointer panics. -/
def storeTtl (st : List RR) (p : Nat) (ttl : Nat) : Option (List RR) :=
  match st[p]? with
  | none => none
  | some r => some (st.set p (r.setTtl ttl))

/-- A compaction loop of `toMsg` over addresses:
`for _, r := range src { if skip(r) { continue }; dst[j] = dns.Copy(r); dst[j].Header().Ttl = ttl; j++ }`,
threading the store. -/
def compactLoopRef (skip : RR → Bool) (ttl : Nat) :
    List Nat → List RR → List (Option Nat) → Nat → Option (List RR × List (Option Nat) × Nat)
  | [], st, dst, j => some (st, dst, j)
  | p :: rest, st, dst, j =>
    match st[p]? with
    | none => none
    | some r =>
      if skip r then compactLoopRef skip ttl rest st dst j
      else if j < dst.length then
        match storeTtl (allocCopy st r).1 (allocCopy st r).2 ttl with
        | none => none
        | some st2 =>
          compactLoopRef skip ttl rest st2 (dst.set j (some (allocCopy st r).2)) (j + 1)
      else none

/-- The addresses of a slice none of whose slots is nil. -/
def addresses : List (Option Nat) → Option (List Nat)
  | [] => some []
  | none :: _ => none
  | some a :: rest => (addresses rest).map (fun as => a :: as)

/-- A whole compaction over addresses: allocate `len(src)` slots, run the loop from `j = 0`,
re-slice to `[:j]`. -/
def compactRef (skip : RR → Bool) (ttl : Nat) (src : List Nat) (st : List RR) :
    Option (List RR × List Nat) :=
  match compactLoopRef skip ttl src st (List.replicate src.length none) 0 with
  | none => none
  | some (st1, dst, j) =>
    if j ≤ dst.length then
      match addresses (dst.take j) with
      | none => none
      | some as => some (st1, as)
    else none

/-- The header part of `toMsg` (the reply shell and the flag and code assignments that follow
it), for an entry over a store. -/
def itemRef.replyHeader (i : itemRef) (m : Msg) (doBit : Bool) : Msg :=
  let m1 := Msg.zero.SetReply m
  let m1 := { m1 with Authoritative := true }
  let m1 := { m1 with AuthenticatedData := i.AuthenticatedData }
  let m1 := if !doBit then { m1 with AuthenticatedData := false } else m1
  let m1 := { m1 with RecursionAvailable := i.RecursionAvailable }
  { m1 with Rcode := i.Rcode }

/-- The method `toMsg` over a store: the final store, the entry (no field of which is assigned)
and the reply. -/
def itemRef.toMsg (i : itemRef) (st : List RR) (m : Msg) (now : Time) (doBit : Bool) :
    Option (List RR × itemRef × MsgRef) :=
  let m1 := i.replyHeader m doBit
  let ttl := uint32 ((i.origTTL : Int) - (Duration.Seconds (now.UTC.Sub i.stored)).toInt)
  let skip := fun r => !doBit && isDNSSEC r
  match compactRef skip ttl i.Answer st with
  | none => none
  | some (st1, answer) =>
    match compactRef skip ttl i.Ns st1 with
    | none => none
    | some (st2, ns) =>
      match compactRef skip ttl i.Extra st2 with
      | none => none
      | some (st3, extra) =>
        some (st3, i, { hdr := m1, Answer := answer, Ns := ns, Extra := extra })

/-- A store with three records and an entry pointing into it. -/
def exampleStore : List RR := [exampleA, exampleDNSKEY, exampleNSEC]

/-- The entry `exampleItem 30 0` over `exampleStore`. -/
def exampleItemRef : itemRef :=
  { Rcode := 0, AuthenticatedData := true, RecursionAvailable := true,
    Answer := [0, 1], Ns := [2], Extra := [0], origTTL := 30,
    stored := { nanos := 0, loc := 0 } }

/-! ## The compaction loop -/

theorem set_append_cons (w : List (Option RR)) (a x : Option RR) (r : List (Option RR)) :
    (w ++ a :: r).set w.length x = w ++ x :: r := by
  induction w with
  | nil => rfl
  | cons b w ih => simp [List.set, ih]

theorem records_map_some (l : List RR) (f : RR → RR) :
    records (l.map (fun x => some (f x))) = some (l.map f) := by
  induction l with
  | nil => rfl
  | cons a l ih => simp [records, ih]

/-- The loop started on a destination `w ++ r` at `j = len(w)`, with room for every source
record in `r`, never panics: it appends the kept records to `w` and advances `j` by their
number. -/
theorem compactLoop_spec (skip : RR → Bool) (f : RR → RR) :
    ∀ (src : List RR) (w r : List (Option RR)), src.length ≤ r.length →
      compactLoop skip f src (w ++ r) w.length =
        some (w ++ (src.filter (fun x => !skip x)).map (fun x => some (f x)) ++
                r.drop (src.filter (fun x => !skip x)).length,
              w.length + (src.filter (fun x => !skip x)).length) := by
  intro src
  induction src with
  | nil => intro w r _; simp [compactLoop]
  | cons x xs ih =>
    intro w r hlen
    cases r with
    | nil => simp at hlen
    | cons a r1 =>
      simp only [List.length_cons, Nat.add_le_add_iff_right] at hlen
      by_cases hs : skip x = true
      · have h1 := ih w (a :: r1) (by simp; omega)
        simp only [compactLoop, hs, if_true]
        rw [h1]
        simp [List.filter, hs]
      · have hs1 : skip x = false := by simpa using hs
        have h1 := ih (w ++ [some (f x)]) r1 hlen
        have hst : storeAt (w ++ a :: r1) w.length (f x) = some ((w ++ [some (f x)]) ++ r1) := by
          simp [storeAt, set_append_cons]
        simp only [compactLoop, hs1, hst]
        simp only [List.length_append, List.length_singleton] at h1
        rw [h1]
        simp [List.filter, hs1, Nat.add_assoc, Nat.add_comm 1]

/-- A compaction never panics and yields the kept records, transformed, in source order. -/
theorem compact_eq (skip : RR → Bool) (f : RR → RR) (src : List RR) :
    compact skip f src = some ((src.filter (fun x => !skip x)).map f) := by
  have h := compactLoop_spec skip f src [] (makeSlice src.length) (by simp [makeSlice])
  simp only [List.nil_append, List.length_nil, Nat.zero_add] at h
  simp only [compact, h, resliceTo]
  simp [records_map_some]

/-! ## Closed forms of `newItem` and `toMsg` -/

/-- The entry `newItem` builds, in closed form: it never panics. -/
theorem newItem_eq (m : Msg) (now : Time) (d : Int) :
    newItem m now d = some
      { Rcode := m.Rcode
        AuthenticatedData := m.AuthenticatedData
        RecursionAvailable := m.RecursionAvailable
        Answer := m.Answer
        Ns := m.Ns
        Extra := m.Extra.filter (fun e => !(e.Rrtype == TypeOPT))
        origTTL := uint32 (Duration.Seconds d).toInt
        stored := now.UTC
        Freq := { hits := 0, last := 0 } } := by
  simp [newItem, compact_eq]

/-- The reply `toMsg` builds, in closed form: it never panics. -/
theorem toMsg_eq (i : item) (m : Msg) (now : Time) (doBit : Bool) :
    i.toMsg m now doBit = some
      { (Msg.zero.SetReply m) with
        Authoritative := true
        AuthenticatedData := (i.AuthenticatedData && doBit)
        RecursionAvailable := i.RecursionAvailable
        Rcode := i.Rcode
        Answer := renderSection doBit (uint32 (i.ttl now)) i.Answer
        Ns := renderSection doBit (uint32 (i.ttl now)) i.Ns
        Extra := renderSection doBit (uint32 (i.ttl now)) i.Extra } := by
  cases doBit <;> simp [item.toMsg, compact_eq, renderSection]

theorem mem_renderSection {doBit : Bool} {ttl : Nat} {l : List RR} {r : RR}
    (h : r ∈ renderSection doBit ttl l) :
    ∃ r0 ∈ l, (doBit = true ∨ isDNSSEC r0 = false) ∧ r = { r0 with Ttl := ttl } := by
  simp only [renderSection, List.mem_map, List.mem_filter] at h
  obtain ⟨r0, ⟨hm, hk⟩, rfl⟩ := h
  refine ⟨r0, hm, ?_, rfl⟩
  cases doBit <;> simp_all

theorem isDNSSEC_iff (r : RR) :
    isDNSSEC r = true ↔
      (r.Rrtype = TypeNSEC ∨ r.Rrtype = TypeNSEC3 ∨ r.Rrtype = TypeDS ∨
        r.Rrtype = TypeRRSIG ∨ r.Rrtype = TypeSIG) := by
  unfold isDNSSEC
  by_cases h1 : r.Rrtype = TypeNSEC <;> by_cases h2 : r.Rrtype = TypeNSEC3 <;>
    by_cases h3 : r.Rrtype = TypeDS <;> by_cases h4 : r.Rrtype = TypeRRSIG <;>
    by_cases h5 : r.Rrtype = TypeSIG <;> simp [h1, h2, h3, h4, h5]

theorem countP_renderSection (doBit : Bool) (ttl : Nat) (l : List RR) :
    (renderSection doBit ttl l).countP (fun r => r.Rrtype == TypeDNSKEY) =
      l.countP (fun r => r.Rrtype == TypeDNSKEY) := by
  unfold renderSection
  rw [List.countP_map, List.countP_filter]
  apply List.countP_congr
  intro r _
  by_cases hk : r.Rrtype = TypeDNSKEY
  · have hd : isDNSSEC r = false := by
      unfold isDNSSEC
      rw [hk]
      decide
    simp [hk, hd, RR.setTtl, Copy]
  · simp [hk, RR.setTtl, Copy]

theorem countP_OPT_renderSection (doBit : Bool) (ttl : Nat) (l : List RR) :
    (renderSection doBit ttl l).countP (fun r => r.Rrtype == TypeOPT) =
      l.countP (fun r => r.Rrtype == TypeOPT) := by
  unfold renderSection
  rw [List.countP_map, List.countP_filter]
  apply List.countP_congr
  intro r _
  by_cases hk : r.Rrtype = TypeOPT
  · have hd : isDNSSEC r = false := by
      unfold isDNSSEC
      rw [hk]
      decide
    simp [hk, hd, RR.setTtl, Copy]
  · simp [hk, RR.setTtl, Copy]

/-- The loop run on a prefix of the source, from an empty destination of the full length: it
does not panic, `j` is the number of kept records, at most the number of records visited, and
the destination keeps its length. -/
theorem compactLoop_prefix (skip : RR → Bool) (f : RR → RR) (pre post : List RR) :
    ∃ dst j, compactLoop skip f pre (makeSlice (pre ++ post).length) 0 = some (dst, j) ∧
      j = (pre.filter (fun x => !skip x)).length ∧ j ≤ pre.length ∧
      dst.length = (pre ++ post).length := by
  have h := compactLoop_spec skip f pre [] (makeSlice (pre ++ post).length)
    (by simp [makeSlice])
  simp only [List.nil_append, List.length_nil, Nat.zero_add] at h
  refine ⟨_, _, h, rfl, List.length_filter_le _ _, ?_⟩
  have hle : (pre.filter (fun x => !skip x)).length ≤ pre.length := List.length_filter_le _ _
  simp only [List.length_append, List.length_map, List.length_drop, makeSlice,
    List.length_replicate]
  omega

/-- The loop on a concatenation is the loop on the first part followed by the loop on the
second part, resumed from the destination and the index the first part left. -/
theorem compactLoop_append (skip : RR → Bool) (f : RR → RR) :
    ∀ (a b : List RR) (dst : List (Option RR)) (j : Nat),
      compactLoop skip f (a ++ b) dst j =
        match compactLoop skip f a dst j with
        | none => none
        | some (d, k) => compactLoop skip f b d k := by
  intro a
  induction a with
  | nil => intro b dst j; simp [compactLoop]
  | cons x xs ih =>
    intro b dst j
    simp only [List.cons_append, compactLoop]
    by_cases hs : skip x = true
    · simp only [hs, if_true]
      exact ih b dst j
    · simp only [hs]
      cases hst : storeAt dst j (f x) with
      | none => simp
      | some d1 => simpa using ih b d1 (j + 1)

/-! ## Correctness of the binary64 model -/

theorem log2Fuel_spec : ∀ (fuel n : Nat), 0 < n → n ≤ fuel →
    2 ^ log2Fuel fuel n ≤ n ∧ n < 2 ^ (log2Fuel fuel n + 1) := by
  intro fuel
  induction fuel with
  | zero => intro n h1 h2; omega
  | succ f ih =>
    intro n h1 h2
    by_cases h : 2 ≤ n
    · have h3 := ih (n / 2) (by omega) (by omega)
      simp only [log2Fuel, h, if_true]
      obtain ⟨h4, h5⟩ := h3
      constructor
      · rw [pow_succ]; omega
      · rw [pow_succ]; omega
    · simp only [log2Fuel, h, if_false]
      omega

theorem floorLog2_spec (n : Nat) (h : 0 < n) :
    2 ^ floorLog2 n ≤ n ∧ n < 2 ^ (floorLog2 n + 1) :=
  log2Fuel_spec n n h (Nat.le_refl n)

theorem scaleBy_pos (n d : Nat) (e : Int) (hd : 0 < d) : 0 < (scaleBy n d e).2 := by
  unfold scaleBy
  split
  · exact Nat.mul_pos hd (Nat.pow_pos (by norm_num))
  · exact hd

theorem scaleBy_val (n d : Nat) (e : Int) (hd : 0 < d) :
    ((scaleBy n d e).1 : ℚ) / ((scaleBy n d e).2 : ℚ) = ((n : ℚ) / d) / (2 : ℚ) ^ e := by
  have hd0 : (d : ℚ) ≠ 0 := by exact_mod_cast hd.ne'
  unfold scaleBy
  split
  · rename_i h
    have : (2 : ℚ) ^ e = (2 : ℚ) ^ e.toNat := by
      rw [← zpow_natCast, Int.toNat_of_nonneg h]
    rw [this]
    push_cast
    field_simp
  · rename_i h
    have h1 : 0 ≤ -e := by omega
    have : (2 : ℚ) ^ e = ((2 : ℚ) ^ (-e).toNat)⁻¹ := by
      rw [← zpow_natCast, Int.toNat_of_nonneg h1, zpow_neg, inv_inv]
    rw [this]
    push_cast
    field_simp

theorem scaleBy_fst_eq_zero (n d : Nat) (e : Int) : (scaleBy n d e).1 = 0 ↔ n = 0 := by
  unfold scaleBy
  split
  · simp
  · simp

theorem roundHalfEven_spec (n d : Nat) (hd : 0 < d) :
    2 * (roundHalfEven n d * d) ≤ 2 * n + d ∧ 2 * n ≤ 2 * (roundHalfEven n d * d) + d := by
  have h1 : d * (n / d) + n % d = n := Nat.div_add_mod n d
  have h2 : n % d < d := Nat.mod_lt n hd
  generalize hq : n / d = q at h1
  generalize hr : n % d = r at h1 h2
  have e1 : q * d = d * q := Nat.mul_comm q d
  have e2 : (q + 1) * d = d * q + d := by rw [Nat.add_mul, Nat.one_mul, e1]
  unfold roundHalfEven
  simp only [hq, hr]
  generalize hp : d * q = P at h1 e1 e2
  split_ifs <;> simp only [e1, e2] <;> omega

theorem roundHalfEven_abs (n d : Nat) (hd : 0 < d) :
    |((roundHalfEven n d : ℕ) : ℚ) - (n : ℚ) / d| ≤ 1 / 2 := by
  obtain ⟨h1, h2⟩ := roundHalfEven_spec n d hd
  have hd0 : (0 : ℚ) < d := by exact_mod_cast hd
  have h1q : (2 : ℚ) * (roundHalfEven n d * d) ≤ 2 * n + d := by exact_mod_cast h1
  have h2q : (2 : ℚ) * n ≤ 2 * (roundHalfEven n d * d) + d := by exact_mod_cast h2
  have h3 : (n : ℚ) / d ≤ roundHalfEven n d + 1 / 2 := by
    rw [div_le_iff₀ hd0]; linarith
  have h4 : (roundHalfEven n d : ℚ) - 1 / 2 ≤ (n : ℚ) / d := by
    rw [le_div_iff₀ hd0]; linarith
  exact abs_le.mpr ⟨by linarith, by linarith⟩

/-- Rounding a positive fraction: the exponent brackets the fraction and the mantissa is within
one half of the scaled fraction. -/
theorem roundFrac_spec (neg : Bool) (n d : Nat) (hn : 0 < n) (hd : 0 < d) :
    (2 : ℚ) ^ ((roundFrac neg n d).exp + 52) ≤ (n : ℚ) / d ∧
    (n : ℚ) / d < (2 : ℚ) ^ ((roundFrac neg n d).exp + 53) ∧
    |((roundFrac neg n d).mant : ℚ) - ((n : ℚ) / d) / (2 : ℚ) ^ (roundFrac neg n d).exp| ≤ 1 / 2 := by
  have hn0 : n ≠ 0 := hn.ne'
  obtain ⟨a1, a2⟩ := floorLog2_spec n hn
  obtain ⟨b1, b2⟩ := floorLog2_spec d hd
  have hnq : (0 : ℚ) < n := by exact_mod_cast hn
  have hdq : (0 : ℚ) < d := by exact_mod_cast hd
  have a1q : (2 : ℚ) ^ (floorLog2 n : ℤ) ≤ n := by rw [zpow_natCast]; exact_mod_cast a1
  have a2q : (n : ℚ) < (2 : ℚ) ^ ((floorLog2 n : ℤ) + 1) := by
    have : ((floorLog2 n : ℤ) + 1) = ((floorLog2 n + 1 : ℕ) : ℤ) := by push_cast; rfl
    rw [this, zpow_natCast]; exact_mod_cast a2
  have b1q : (2 : ℚ) ^ (floorLog2 d : ℤ) ≤ d := by rw [zpow_natCast]; exact_mod_cast b1
  have b2q : (d : ℚ) < (2 : ℚ) ^ ((floorLog2 d : ℤ) + 1) := by
    have : ((floorLog2 d : ℤ) + 1) = ((floorLog2 d + 1 : ℕ) : ℤ) := by push_cast; rfl
    rw [this, zpow_natCast]; exact_mod_cast b2
  have two0 : (2 : ℚ) ≠ 0 := by norm_num
  -- the quotient lies strictly between 2 ^ (c - 1) and 2 ^ (c + 1)
  have lo : (2 : ℚ) ^ ((floorLog2 n : ℤ) - floorLog2 d - 1) < (n : ℚ) / d := by
    rw [lt_div_iff₀ hdq]
    calc (2 : ℚ) ^ ((floorLog2 n : ℤ) - floorLog2 d - 1) * d
        < (2 : ℚ) ^ ((floorLog2 n : ℤ) - floorLog2 d - 1) * (2 : ℚ) ^ ((floorLog2 d : ℤ) + 1) :=
          mul_lt_mul_of_pos_left b2q (zpow_pos (by norm_num) _)
      _ = (2 : ℚ) ^ (floorLog2 n : ℤ) := by rw [← zpow_add₀ two0]; congr 1; ring
      _ ≤ n := a1q
  have hi : (n : ℚ) / d < (2 : ℚ) ^ ((floorLog2 n : ℤ) - floorLog2 d + 1) := by
    rw [div_lt_iff₀ hdq]
    calc (n : ℚ) < (2 : ℚ) ^ ((floorLog2 n : ℤ) + 1) := a2q
      _ = (2 : ℚ) ^ ((floorLog2 n : ℤ) - floorLog2 d + 1) * (2 : ℚ) ^ (floorLog2 d : ℤ) := by
          rw [← zpow_add₀ two0]; congr 1; ring
      _ ≤ (2 : ℚ) ^ ((floorLog2 n : ℤ) - floorLog2 d + 1) * d :=
          mul_le_mul_of_nonneg_left b1q (zpow_pos (by norm_num) _).le
  unfold roundFrac
  simp only [hn0, if_false]
  generalize hc : (floorLog2 n : ℤ) - (floorLog2 d : ℤ) = c at lo hi
  have hs := scaleBy_val n d c hd
  have hsp := scaleBy_pos n d c hd
  have hcpos : (0 : ℚ) < (2 : ℚ) ^ c := zpow_pos (by norm_num) _
  have key : ∀ p : ℤ, (2 : ℚ) ^ p ≤ (n : ℚ) / d → (n : ℚ) / d < (2 : ℚ) ^ (p + 1) →
      (2 : ℚ) ^ (p - 52 + 52) ≤ (n : ℚ) / d ∧ (n : ℚ) / d < (2 : ℚ) ^ (p - 52 + 53) ∧
      |((roundHalfEven (scaleBy n d (p - 52)).1 (scaleBy n d (p - 52)).2 : ℕ) : ℚ) -
        ((n : ℚ) / d) / (2 : ℚ) ^ (p - 52)| ≤ 1 / 2 := by
    intro p h1 h2
    refine ⟨?_, ?_, ?_⟩
    · have : p - 52 + 52 = p := by ring
      rw [this]; exact h1
    · have : p - 52 + 53 = p + 1 := by ring
      rw [this]; exact h2
    · rw [← scaleBy_val n d (p - 52) hd]
      exact roundHalfEven_abs _ _ (scaleBy_pos n d (p - 52) hd)
  by_cases hle : (scaleBy n d c).2 ≤ (scaleBy n d c).1
  · simp only [hle, if_true]
    apply key c
    · have h3 : (1 : ℚ) ≤ ((scaleBy n d c).1 : ℚ) / ((scaleBy n d c).2 : ℚ) := by
        rw [le_div_iff₀ (by exact_mod_cast hsp)]
        rw [one_mul]; exact_mod_cast hle
      rw [hs, le_div_iff₀ hcpos, one_mul] at h3
      exact h3
    · exact hi
  · simp only [hle, if_false]
    apply key (c - 1)
    · exact lo.le
    · have h3 : ((scaleBy n d c).1 : ℚ) / ((scaleBy n d c).2 : ℚ) < 1 := by
        rw [div_lt_iff₀ (by exact_mod_cast hsp)]
        rw [one_mul]; exact_mod_cast (not_le.mp hle)
      rw [hs, div_lt_iff₀ hcpos, one_mul] at h3
      have : c - 1 + 1 = c := by ring
      rw [this]; exact h3

theorem roundFrac_isRounded (neg : Bool) (n d : Nat) (hd : 0 < d) :
    IsRounded ((n : ℚ) / d) (roundFrac neg n d) := by
  rcases Nat.eq_zero_or_pos n with h | h
  · left
    subst h
    simp [roundFrac]
  · right
    have hq : (0 : ℚ) < (n : ℚ) / d := div_pos (by exact_mod_cast h) (by exact_mod_cast hd)
    exact ⟨hq, roundFrac_spec neg n d h hd⟩

theorem roundFrac_neg (neg : Bool) (n d : Nat) : (roundFrac neg n d).neg = neg := by
  unfold roundFrac
  split <;> rfl

theorem ofInt_isRounded (z : Int) : IsRounded (z.natAbs : ℚ) (F64.ofInt z) := by
  have h := roundFrac_isRounded (decide (z < 0)) z.natAbs 1 (by norm_num)
  simpa [F64.ofInt] using h

theorem mag_pos_iff (a : F64) : 0 < a.mag ↔ 0 < a.mant := by
  unfold F64.mag
  have h2 : (0 : ℚ) < (2 : ℚ) ^ a.exp := zpow_pos (by norm_num) _
  constructor
  · intro h
    by_contra h0
    have : a.mant = 0 := by omega
    simp [this] at h
  · intro h
    exact mul_pos (by exact_mod_cast h) h2

theorem div_isRounded (a b : F64) (hb : 0 < b.mant) :
    IsRounded (a.mag / b.mag) (F64.div a b) := by
  have h := roundFrac_isRounded (xor a.neg b.neg) (scaleBy a.mant b.mant (b.exp - a.exp)).1
    (scaleBy a.mant b.mant (b.exp - a.exp)).2 (scaleBy_pos _ _ _ hb)
  rw [scaleBy_val _ _ _ hb] at h
  have two0 : (2 : ℚ) ≠ 0 := by norm_num
  have hb0 : (b.mant : ℚ) ≠ 0 := by exact_mod_cast hb.ne'
  have e : ((a.mant : ℚ) / b.mant) / (2 : ℚ) ^ (b.exp - a.exp) = a.mag / b.mag := by
    unfold F64.mag
    rw [zpow_sub₀ two0]
    have h1 : (2 : ℚ) ^ a.exp ≠ 0 := zpow_ne_zero _ two0
    have h2 : (2 : ℚ) ^ b.exp ≠ 0 := zpow_ne_zero _ two0
    field_simp
  rw [e] at h
  exact h

theorem signedMant_eq (a : F64) (e : Int) (sg : Bool) (ha : a.mant = 0 ∨ a.neg = sg) :
    a.signedMant e =
      (if sg then -1 else 1) * ((a.mant * 2 ^ (a.exp - e).toNat : ℕ) : ℤ) := by
  unfold F64.signedMant
  rcases ha with h | h
  · simp [h]
  · rw [h]; cases sg <;> simp

theorem shifted_mag (a : F64) (e : Int) (he : e ≤ a.exp) :
    ((a.mant * 2 ^ (a.exp - e).toNat : ℕ) : ℚ) * (2 : ℚ) ^ e = a.mag := by
  have two0 : (2 : ℚ) ≠ 0 := by norm_num
  have h1 : (2 : ℚ) ^ (a.exp - e).toNat = (2 : ℚ) ^ (a.exp - e) := by
    rw [← zpow_natCast, Int.toNat_of_nonneg (by omega)]
  unfold F64.mag
  push_cast
  rw [h1, mul_assoc, ← zpow_add₀ two0]
  congr 2
  ring

theorem add_isRounded (a b : F64) (sg : Bool) (ha : a.mant = 0 ∨ a.neg = sg)
    (hb : b.mant = 0 ∨ b.neg = sg) :
    IsRounded (a.mag + b.mag) (F64.add a b) ∧
      (0 < a.mag + b.mag → (F64.add a b).neg = sg) := by
  have two0 : (2 : ℚ) ≠ 0 := by norm_num
  unfold F64.add
  simp only []
  generalize he : min a.exp b.exp = e
  have hea : e ≤ a.exp := by rw [← he]; exact min_le_left _ _
  have heb : e ≤ b.exp := by rw [← he]; exact min_le_right _ _
  rw [signedMant_eq a e sg ha, signedMant_eq b e sg hb]
  generalize hA : a.mant * 2 ^ (a.exp - e).toNat = mA
  generalize hB : b.mant * 2 ^ (b.exp - e).toNat = mB
  have hmA : (mA : ℚ) * (2 : ℚ) ^ e = a.mag := by rw [← hA]; exact shifted_mag a e hea
  have hmB : (mB : ℚ) * (2 : ℚ) ^ e = b.mag := by rw [← hB]; exact shifted_mag b e heb
  have hs : ((if sg then -1 else 1) * (mA : ℤ) + (if sg then -1 else 1) * (mB : ℤ)).natAbs
      = mA + mB := by
    cases sg <;> simp <;> omega
  rw [hs]
  have hv : (((scaleBy (mA + mB) 1 (-e)).1 : ℚ)) / ((scaleBy (mA + mB) 1 (-e)).2 : ℚ)
      = a.mag + b.mag := by
    rw [scaleBy_val _ _ _ (by norm_num), ← hmA, ← hmB, zpow_neg]
    push_cast
    field_simp
    ring
  constructor
  · have h := roundFrac_isRounded
      (if (if sg then -1 else 1) * (mA : ℤ) + (if sg then -1 else 1) * (mB : ℤ) = 0
        then a.neg && b.neg
        else decide ((if sg then -1 else 1) * (mA : ℤ) + (if sg then -1 else 1) * (mB : ℤ) < 0))
      (scaleBy (mA + mB) 1 (-e)).1 (scaleBy (mA + mB) 1 (-e)).2 (scaleBy_pos _ _ _ (by norm_num))
    rw [hv] at h
    exact h
  · intro hpos
    rw [roundFrac_neg]
    have hM : 0 < mA + mB := by
      by_contra h0
      have h1 : mA = 0 := by omega
      have h2 : mB = 0 := by omega
      rw [← hmA, ← hmB, h1, h2] at hpos
      simp at hpos
    cases sg
    · have : ¬ ((1 : ℤ) * (mA : ℤ) + 1 * (mB : ℤ) = 0) := by omega
      simp only [Bool.false_eq_true, if_false, this]
      simp; omega
    · have : ¬ ((-1 : ℤ) * (mA : ℤ) + -1 * (mB : ℤ) = 0) := by omega
      simp only [if_true, this, if_false]
      simp; omega

theorem mag_nonneg (a : F64) : 0 ≤ a.mag := by
  unfold F64.mag
  exact mul_nonneg (by exact_mod_cast Nat.zero_le _) (zpow_pos (by norm_num) _).le

/-- A rounded value in terms of a power of two with a natural exponent, when the exponent of
the result is not positive. -/
theorem isRounded_units {x : ℚ} {a : F64} (h : IsRounded x a) (hx : 0 < x) (he : a.exp ≤ 0) :
    a.mag = (a.mant : ℚ) / ((2 ^ (-a.exp).toNat : ℕ) : ℚ) ∧
    |(a.mant : ℚ) - x * ((2 ^ (-a.exp).toNat : ℕ) : ℚ)| ≤ 1 / 2 := by
  rcases h with ⟨h0, _⟩ | ⟨_, _, _, h3⟩
  · exact absurd h0 hx.ne'
  · have e1 : (2 : ℚ) ^ a.exp = (((2 ^ (-a.exp).toNat : ℕ) : ℚ))⁻¹ := by
      push_cast
      rw [← zpow_natCast, Int.toNat_of_nonneg (by omega), zpow_neg, inv_inv]
    constructor
    · unfold F64.mag
      rw [e1]; rfl
    · rw [e1, div_inv_eq_mul] at h3
      exact h3

theorem isRounded_exp_lt {x : ℚ} {a : F64} (h : IsRounded x a) (hx : 0 < x) (k : ℤ)
    (hk : x < (2 : ℚ) ^ k) : a.exp + 52 < k := by
  rcases h with ⟨h0, _⟩ | ⟨_, h1, _, _⟩
  · exact absurd h0 hx.ne'
  · exact (zpow_lt_zpow_iff_right₀ (by norm_num : (1 : ℚ) < 2)).mp (lt_of_le_of_lt h1 hk)

/-- Integers below `2 ^ 53` are converted exactly. -/
theorem isRounded_nat {k : ℕ} {a : F64} (h : IsRounded (k : ℚ) a) (hk : k < 2 ^ 53) :
    a.mag = k := by
  rcases Nat.eq_zero_or_pos k with h0 | hpos
  · subst h0
    rcases h with ⟨_, hm⟩ | ⟨hx, _⟩
    · simp [F64.mag, hm]
    · simp at hx
  · have hx : (0 : ℚ) < k := by exact_mod_cast hpos
    have hlt : (k : ℚ) < (2 : ℚ) ^ (53 : ℤ) := by
      have : (2 : ℚ) ^ (53 : ℤ) = ((2 ^ 53 : ℕ) : ℚ) := by norm_num
      rw [this]; exact_mod_cast hk
    have he := isRounded_exp_lt h hx 53 hlt
    obtain ⟨h1, h2⟩ := isRounded_units h hx (by omega)
    generalize hP : 2 ^ (-a.exp).toNat = P at h1 h2
    have h3 : ((a.mant : ℤ) : ℚ) - ((k * P : ℕ) : ℤ) = (a.mant : ℚ) - (k : ℚ) * (P : ℚ) := by
      push_cast; ring
    have h4 : |(a.mant : ℤ) - ((k * P : ℕ) : ℤ)| < 1 := by
      have : |(((a.mant : ℤ) - ((k * P : ℕ) : ℤ) : ℤ) : ℚ)| < 1 := by
        push_cast
        push_cast at h3
        rw [h3]
        exact lt_of_le_of_lt h2 (by norm_num)
      exact_mod_cast this
    have h5 : (a.mant : ℤ) = ((k * P : ℕ) : ℤ) := by
      have := Int.abs_lt_one_iff.mp h4
      omega
    have h6 : a.mant = k * P := by exact_mod_cast h5
    have hPpos : (0 : ℚ) < P := by
      rw [← hP]; exact_mod_cast Nat.pow_pos (by norm_num : 0 < 2)
    rw [h1, h6]
    push_cast
    field_simp

theorem two_pow_toNat_le (e : ℤ) (j : ℕ) (h : e ≤ -(j : ℤ)) :
    ((2 ^ j : ℕ) : ℚ) ≤ ((2 ^ (-e).toNat : ℕ) : ℚ) := by
  have : j ≤ (-e).toNat := by omega
  exact_mod_cast Nat.pow_le_pow_right (by norm_num) this

/-- The rounding of a fraction below one exceeds it by at most `2 ^ (-54)`. -/
theorem isRounded_frac_bound {x : ℚ} {a : F64} (h : IsRounded x a) (hx0 : 0 ≤ x) (hx1 : x < 1) :
    a.mag ≤ x + 1 / 2 ^ 54 := by
  rcases hx0.eq_or_lt with h0 | hpos
  · rcases h with ⟨_, hm⟩ | ⟨hx, _⟩
    · simp [F64.mag, hm, ← h0]
    · exact absurd h0.symm hx.ne'
  · have he := isRounded_exp_lt h hpos 0 (by simpa using hx1)
    obtain ⟨h1, h2⟩ := isRounded_units h hpos (by omega)
    have hP := two_pow_toNat_le a.exp 53 (by omega)
    generalize (2 ^ (-a.exp).toNat : ℕ) = P at h1 h2 hP
    have hP53 : (2 : ℚ) ^ 53 ≤ P := by
      have : ((2 ^ 53 : ℕ) : ℚ) = (2 : ℚ) ^ 53 := by norm_num
      rw [← this]; exact hP
    have hPpos : (0 : ℚ) < P := lt_of_lt_of_le (by norm_num) hP53
    rw [h1, div_le_iff₀ hPpos]
    have h3 := (abs_le.mp h2).2
    have h4 : (1 : ℚ) / 2 ^ 54 * P ≥ 1 / 2 := by
      have : (1 : ℚ) / 2 ^ 54 * 2 ^ 53 = 1 / 2 := by norm_num
      nlinarith
    nlinarith

/-- A value between an integer `K` and `K + 1 - 2 ^ (-30)`, below `2 ^ 24`, is rounded to a
value that is still at least `K` and less than `K + 1`. -/
theorem isRounded_floor {x : ℚ} {a : F64} (h : IsRounded x a) (K : ℕ) (hK : K + 1 ≤ 2 ^ 24)
    (hlo : (K : ℚ) ≤ x) (hhi : x < K + 1 - 1 / 2 ^ 30) :
    (K : ℚ) ≤ a.mag ∧ a.mag < K + 1 := by
  have hK0 : (0 : ℚ) ≤ K := by exact_mod_cast Nat.zero_le K
  rcases (le_trans hK0 hlo).eq_or_lt with h0 | hpos
  · rcases h with ⟨_, hm⟩ | ⟨hx, _⟩
    · have hKz : (K : ℚ) = 0 := le_antisymm (by rw [h0]; exact hlo) hK0
      simp [F64.mag, hm, hKz]
    · exact absurd h0.symm hx.ne'
  · have hx24 : x < (2 : ℚ) ^ (24 : ℤ) := by
      have h1 : ((K + 1 : ℕ) : ℚ) ≤ ((2 ^ 24 : ℕ) : ℚ) := by exact_mod_cast hK
      have h2 : (2 : ℚ) ^ (24 : ℤ) = ((2 ^ 24 : ℕ) : ℚ) := by norm_num
      rw [h2]
      push_cast at h1 ⊢
      have : (0 : ℚ) < 1 / 2 ^ 30 := by norm_num
      linarith
    have he := isRounded_exp_lt h hpos 24 hx24
    obtain ⟨h1, h2⟩ := isRounded_units h hpos (by omega)
    have hP := two_pow_toNat_le a.exp 29 (by omega)
    generalize (2 ^ (-a.exp).toNat : ℕ) = P at h1 h2 hP
    have hP29 : (2 : ℚ) ^ 29 ≤ P := by
      have : ((2 ^ 29 : ℕ) : ℚ) = (2 : ℚ) ^ 29 := by norm_num
      rw [← this]; exact hP
    have hPpos : (0 : ℚ) < P := lt_of_lt_of_le (by norm_num) hP29
    obtain ⟨h3, h4⟩ := abs_le.mp h2
    rw [h1]
    constructor
    · rw [le_div_iff₀ hPpos]
      -- the mantissa and `K * P` are integers, and the mantissa exceeds `K * P - 1`
      have h5 : ((K * P : ℕ) : ℚ) < (a.mant : ℚ) + 1 := by
        push_cast
        have : (K : ℚ) * P ≤ x * P := mul_le_mul_of_nonneg_right hlo hPpos.le
        linarith
      have h6 : K * P < a.mant + 1 := by exact_mod_cast h5
      have h7 : K * P ≤ a.mant := by omega
      exact_mod_cast h7
    · rw [div_lt_iff₀ hPpos]
      have h5 : x * P < ((K : ℚ) + 1 - 1 / 2 ^ 30) * P := mul_lt_mul_of_pos_right hhi hPpos
      have h6 : (1 : ℚ) / 2 ^ 30 * P ≥ 1 / 2 := by
        have : (1 : ℚ) / 2 ^ 30 * 2 ^ 29 = 1 / 2 := by norm_num
        nlinarith
      nlinarith

/-- The conversion to an integer of a value whose magnitude lies in `[K, K + 1)`. -/
theorem toInt_of_mag (a : F64) (K : ℕ) (hlo : (K : ℚ) ≤ a.mag) (hhi : a.mag < K + 1) :
    a.toInt = if a.neg then -(K : ℤ) else (K : ℤ) := by
  have hpos := scaleBy_pos a.mant 1 (-a.exp) (by norm_num)
  have hv := scaleBy_val a.mant 1 (-a.exp) (by norm_num)
  have hmag : ((a.mant : ℚ) / (1 : ℕ)) / (2 : ℚ) ^ (-a.exp) = a.mag := by
    unfold F64.mag
    rw [zpow_neg]
    simp
  rw [hmag] at hv
  have hdiv : (scaleBy a.mant 1 (-a.exp)).1 / (scaleBy a.mant 1 (-a.exp)).2 = K := by
    generalize (scaleBy a.mant 1 (-a.exp)).1 = t1 at hv
    generalize (scaleBy a.mant 1 (-a.exp)).2 = t2 at hv hpos
    have ht2 : (0 : ℚ) < t2 := by exact_mod_cast hpos
    rw [← hv] at hlo hhi
    rw [le_div_iff₀ ht2] at hlo
    rw [div_lt_iff₀ ht2] at hhi
    apply Nat.div_eq_of_lt_le
    · exact_mod_cast hlo
    · exact_mod_cast hhi
  unfold F64.toInt
  simp only [hdiv]

theorem div_neg_eq (a b : F64) : (F64.div a b).neg = xor a.neg b.neg := by
  unfold F64.div
  exact roundFrac_neg _ _ _

theorem ofInt_neg_eq (z : Int) : (F64.ofInt z).neg = decide (z < 0) := by
  unfold F64.ofInt
  exact roundFrac_neg _ _ _

theorem isRounded_mant_pos {x : ℚ} {a : F64} (h : IsRounded x a) (hm : a.mant ≠ 0) : 0 < x := by
  rcases h with ⟨_, h0⟩ | ⟨hx, _⟩
  · exact absurd h0 hm
  · exact hx

/-- Go's truncating quotient and remainder of a duration by one second, through the magnitude of
the duration. -/
theorem tdiv_tmod_second (d : Int) :
    (Int.tdiv d Second).natAbs = d.natAbs / 1000000000 ∧
    (Int.tmod d Second).natAbs = d.natAbs % 1000000000 ∧
    (Int.tdiv d Second ≠ 0 → (Int.tdiv d Second < 0 ↔ d < 0)) ∧
    (Int.tmod d Second ≠ 0 → (Int.tmod d Second < 0 ↔ d < 0)) ∧
    Int.tdiv d Second = if d < 0 then -((d.natAbs / 1000000000 : ℕ) : ℤ)
      else ((d.natAbs / 1000000000 : ℕ) : ℤ) := by
  have hS : Second = ((1000000000 : ℕ) : ℤ) := rfl
  have hdm := Int.tdiv_add_tmod d Second
  rcases Int.natAbs_eq d with h | h
  · generalize d.natAbs = k at h
    subst h
    have h1 : Int.tdiv (k : ℤ) Second = ((k / 1000000000 : ℕ) : ℤ) := by
      rw [hS, ← Int.ofNat_tdiv]
    have h2 : Int.tmod (k : ℤ) Second = ((k % 1000000000 : ℕ) : ℤ) := by
      rw [hS, ← Int.ofNat_tmod]
    rw [h1, h2]
    refine ⟨Int.natAbs_ofNat _, Int.natAbs_ofNat _, by omega, by omega, ?_⟩
    have : ¬ ((k : ℤ) < 0) := by omega
    simp [this]
  · generalize d.natAbs = k at h
    subst h
    have h1 : Int.tdiv (-(k : ℤ)) Second = -((k / 1000000000 : ℕ) : ℤ) := by
      rw [Int.neg_tdiv, hS, ← Int.ofNat_tdiv]
    have h2 : Int.tmod (-(k : ℤ)) Second = -((k % 1000000000 : ℕ) : ℤ) := by
      rw [h1] at hdm
      generalize Int.tmod (-(k : ℤ)) Second = c at hdm ⊢
      rw [hS] at hdm
      have := Nat.div_add_mod k 1000000000
      push_cast at hdm ⊢
      omega
    rw [h1, h2]
    refine ⟨by rw [Int.natAbs_neg]; exact Int.natAbs_ofNat _,
      by rw [Int.natAbs_neg]; exact Int.natAbs_ofNat _, by omega, by omega, ?_⟩
    split <;> omega

/-- Below `2 ^ 24` seconds in magnitude, `int(d.Seconds())` is the duration in whole seconds,
truncated toward zero: the float64 detour loses nothing. -/
theorem seconds_toInt (d : Int) (hd : d.natAbs < 2 ^ 24 * 1000000000) :
    (Duration.Seconds d).toInt = Int.tdiv d Second := by
  obtain ⟨t1, t2, t3, t4, t5⟩ := tdiv_tmod_second d
  unfold Duration.Seconds
  simp only []
  generalize hsec : Int.tdiv d Second = sec at t1 t3 t5
  generalize hnsec : Int.tmod d Second = nsec at t2 t4
  -- the three conversions are exact
  have hA0 := ofInt_isRounded sec
  have hB0 := ofInt_isRounded nsec
  have hC0 := ofInt_isRounded 1000000000
  rw [t1] at hA0
  rw [t2] at hB0
  have hKlt : d.natAbs / 1000000000 + 1 ≤ 2 ^ 24 := by
    have : d.natAbs / 1000000000 < 2 ^ 24 := by
      apply Nat.div_lt_of_lt_mul
      rw [Nat.mul_comm]; exact hd
    omega
  have hRlt : d.natAbs % 1000000000 < 1000000000 := Nat.mod_lt _ (by norm_num)
  have hA : (F64.ofInt sec).mag = ((d.natAbs / 1000000000 : ℕ) : ℚ) :=
    isRounded_nat hA0 (by norm_num at hKlt ⊢; omega)
  have hB : (F64.ofInt nsec).mag = ((d.natAbs % 1000000000 : ℕ) : ℚ) :=
    isRounded_nat hB0 (by norm_num; omega)
  have hC : (F64.ofInt 1000000000).mag = ((1000000000 : ℕ) : ℚ) :=
    isRounded_nat hC0 (by norm_num)
  have hCm : 0 < (F64.ofInt 1000000000).mant := by
    rw [← mag_pos_iff, hC]; norm_num
  have hCn : (F64.ofInt 1000000000).neg = false := by
    rw [ofInt_neg_eq]; decide
  -- the quotient
  have hQ0 := div_isRounded (F64.ofInt nsec) (F64.ofInt 1000000000) hCm
  have hQn := div_neg_eq (F64.ofInt nsec) (F64.ofInt 1000000000)
  rw [hCn, Bool.xor_false, ofInt_neg_eq] at hQn
  rw [hB, hC] at hQ0
  generalize hQ : F64.div (F64.ofInt nsec) (F64.ofInt 1000000000) = Q at hQ0 hQn ⊢
  generalize hk : d.natAbs / 1000000000 = K at *
  generalize hr : d.natAbs % 1000000000 = r at *
  have hr1 : (r : ℚ) ≤ 1000000000 - 1 := by
    have : r + 1 ≤ 1000000000 := hRlt
    exact_mod_cast (by omega : (r : ℤ) ≤ 1000000000 - 1)
  have hx0 : (0 : ℚ) ≤ ((r : ℕ) : ℚ) / ((1000000000 : ℕ) : ℚ) := by positivity
  have hx1 : ((r : ℕ) : ℚ) / ((1000000000 : ℕ) : ℚ) ≤ 1 - 1 / 1000000000 := by
    rw [div_le_iff₀ (by norm_num)]
    push_cast
    linarith
  have hQb := isRounded_frac_bound hQ0 hx0 (lt_of_le_of_lt hx1 (by norm_num))
  have hQlt : Q.mag < 1 - 1 / 2 ^ 30 := by
    have : (1 : ℚ) - 1 / 1000000000 + 1 / 2 ^ 54 < 1 - 1 / 2 ^ 30 := by norm_num
    linarith
  -- the signs agree with the sign of the duration
  have sA : (F64.ofInt sec).mant = 0 ∨ (F64.ofInt sec).neg = decide (d < 0) := by
    by_cases hm : (F64.ofInt sec).mant = 0
    · exact Or.inl hm
    · right
      have hp := isRounded_mant_pos hA0 hm
      have hK : 0 < K := by exact_mod_cast hp
      have hs : sec ≠ 0 := by
        intro h0; rw [h0] at t1; simp at t1; omega
      rw [ofInt_neg_eq]
      exact decide_eq_decide.mpr (t3 hs)
  have sQ : Q.mant = 0 ∨ Q.neg = decide (d < 0) := by
    by_cases hm : Q.mant = 0
    · exact Or.inl hm
    · right
      have hp := isRounded_mant_pos hQ0 hm
      have hr0 : 0 < r := by
        by_contra h0
        have : r = 0 := by omega
        rw [this] at hp
        simp at hp
      have hs : nsec ≠ 0 := by
        intro h0; rw [h0] at t2; simp at t2; omega
      rw [hQn]
      exact decide_eq_decide.mpr (t4 hs)
  -- the sum
  obtain ⟨hR0, hRn⟩ := add_isRounded (F64.ofInt sec) Q (decide (d < 0)) sA sQ
  rw [hA] at hR0 hRn
  have hfl := isRounded_floor hR0 K hKlt (by linarith [mag_nonneg Q]) (by linarith)
  rw [toInt_of_mag _ K hfl.1 hfl.2]
  rcases Nat.eq_zero_or_pos K with h0 | hpos
  · rw [t5, h0]; simp
  · have hp : (0 : ℚ) < (K : ℚ) + Q.mag := by
      have : (0 : ℚ) < K := by exact_mod_cast hpos
      linarith [mag_nonneg Q]
    rw [hRn hp, t5]
    by_cases hneg : d < 0 <;> simp [hneg]

/-! ## Remaining lifetime and rendered TTL -/

theorem uint32_cast (x : Int) : ((uint32 x : Nat) : Int) = x % 4294967296 := by
  unfold uint32
  have h : (2 : Int) ^ 32 = 4294967296 := by norm_num
  rw [h]
  omega

/-- Within `2 ^ 24` seconds of the store instant, the remaining lifetime is the stored lifetime
minus the elapsed time in whole seconds, truncated toward zero. -/
theorem item_ttl_eq (i : item) (now : Time)
    (h : (now.nanos - i.stored.nanos).natAbs < 2 ^ 24 * 1000000000) :
    i.ttl now = (i.origTTL : Int) - Int.tdiv (now.nanos - i.stored.nanos) Second := by
  have hsub : now.UTC.Sub i.stored = now.nanos - i.stored.nanos := by
    unfold Time.Sub Time.UTC minDuration maxDuration
    simp only []
    have h1 : ¬ (now.nanos - i.stored.nanos < -(2 ^ 63)) := by
      norm_num at h ⊢; omega
    have h2 : ¬ ((2 : Int) ^ 63 - 1 < now.nanos - i.stored.nanos) := by
      norm_num at h ⊢; omega
    rw [if_neg h1, if_neg h2]
  unfold item.ttl
  rw [hsub, seconds_toInt _ h]

/-- Every record of a reply carries the remaining lifetime converted to uint32. -/
theorem toMsg_ttl_all (i : item) (q : Msg) (now : Time) (doBit : Bool) :
    ∃ m, i.toMsg q now doBit = some m ∧
      ∀ r ∈ m.Answer ++ m.Ns ++ m.Extra, r.Ttl = uint32 (i.ttl now) := by
  refine ⟨_, toMsg_eq i q now doBit, ?_⟩
  intro r hr
  simp only [List.mem_append] at hr
  rcases hr with (hr | hr) | hr <;>
    · obtain ⟨r0, _, _, h⟩ := mem_renderSection hr
      rw [h]

/-- Up to `2 ^ 24` seconds after the store instant and within the stored lifetime, every record
of a reply carries the stored lifetime minus the floor of the elapsed seconds. -/
theorem toMsg_ttl_below_two_pow_24 (i : item) (q : Msg) (now : Time) (doBit : Bool)
    (h0 : 0 ≤ now.nanos - i.stored.nanos)
    (h1 : now.nanos - i.stored.nanos < 2 ^ 24 * 1000000000)
    (h2 : Int.fdiv (now.nanos - i.stored.nanos) 1000000000 ≤ (i.origTTL : Int))
    (h3 : i.origTTL < 2 ^ 32) :
    ∃ m, i.toMsg q now doBit = some m ∧
      ∀ r ∈ m.Answer ++ m.Ns ++ m.Extra,
        (r.Ttl : Int) = (i.origTTL : Int) - Int.fdiv (now.nanos - i.stored.nanos) 1000000000 := by
  obtain ⟨m, hm, hall⟩ := toMsg_ttl_all i q now doBit
  refine ⟨m, hm, ?_⟩
  intro r hr
  have hb : (now.nanos - i.stored.nanos).natAbs < 2 ^ 24 * 1000000000 := by
    norm_num at h1 ⊢; omega
  have ht := item_ttl_eq i now hb
  have hf : Int.fdiv (now.nanos - i.stored.nanos) 1000000000
      = Int.tdiv (now.nanos - i.stored.nanos) Second := by
    rw [Int.fdiv_eq_tdiv h0 (by decide)]; rfl
  rw [hf] at h2 ⊢
  have hnn : 0 ≤ Int.tdiv (now.nanos - i.stored.nanos) Second :=
    Int.tdiv_nonneg h0 (by decide)
  rw [hall r hr, uint32_cast, ht]
  norm_num at h3
  omega

/-- Go's truncating quotient by one second through the floor quotient. -/
theorem tdiv_second_cases (a : Int) :
    Int.tdiv a Second = if 0 ≤ a then a / 1000000000 else -((-a) / 1000000000) := by
  have hS : Second = 1000000000 := rfl
  rw [hS]
  by_cases h : 0 ≤ a
  · rw [if_pos h, Int.tdiv_eq_ediv h (by decide)]
  · rw [if_neg h]
    have h1 : Int.tdiv a 1000000000 = -(Int.tdiv (-a) 1000000000) := by
      rw [Int.neg_tdiv, neg_neg]
    rw [h1, Int.tdiv_eq_ediv (by omega) (by decide)]

/-- A duration of less than `2 ^ 24` seconds is stored as its whole seconds, whatever the
response and the instant. -/
theorem newItem_origTTL_below_two_pow_24 (R : Msg) (now : Time) (d : Int) (h0 : 0 ≤ d)
    (h1 : d < 2 ^ 24 * 1000000000) :
    ∃ it, newItem R now d = some it ∧ (it.origTTL : Int) = Int.fdiv d 1000000000 := by
  refine ⟨_, newItem_eq R now d, ?_⟩
  have hb : d.natAbs < 2 ^ 24 * 1000000000 := by
    norm_num at h1 ⊢; omega
  show ((uint32 (Duration.Seconds d).toInt : Nat) : Int) = Int.fdiv d 1000000000
  rw [uint32_cast, seconds_toInt d hb, tdiv_second_cases, if_pos h0,
    Int.fdiv_eq_ediv _ (by decide)]
  norm_num at h1
  omega

/-- At the store instant itself the whole stored lifetime remains. -/
theorem item_ttl_at_store (i : item) (now : Time) (h : now.nanos = i.stored.nanos) :
    i.ttl now = (i.origTTL : Int) := by
  have hb : (now.nanos - i.stored.nanos).natAbs < 2 ^ 24 * 1000000000 := by
    rw [h]; simp
  rw [item_ttl_eq i now hb, h, sub_self, Int.zero_tdiv, sub_zero]

/-- A response without OPT records, stored for less than `2 ^ 24` seconds and rendered at the
store instant with DNSSEC desired, is reproduced, every record carrying the whole seconds of
the duration as its TTL. -/
theorem toMsg_newItem_below_two_pow_24 (R q : Msg) (t : Time) (d : Int)
    (hopt : ∀ r ∈ R.Extra, r.Rrtype ≠ TypeOPT) (h0 : 0 ≤ d) (h1 : d < 2 ^ 24 * 1000000000) :
    ∃ it, newItem R t d = some it ∧ ∃ m, it.toMsg q t true = some m ∧
      m.Rcode = R.Rcode ∧ m.AuthenticatedData = R.AuthenticatedData ∧
      m.RecursionAvailable = R.RecursionAvailable ∧
      m.Answer = R.Answer.map (fun r => { r with Ttl := (Int.fdiv d 1000000000).toNat }) ∧
      m.Ns = R.Ns.map (fun r => { r with Ttl := (Int.fdiv d 1000000000).toNat }) ∧
      m.Extra = R.Extra.map (fun r => { r with Ttl := (Int.fdiv d 1000000000).toNat }) := by
  obtain ⟨it, hit, horig⟩ := newItem_origTTL_below_two_pow_24 R t d h0 h1
  have hit2 := hit
  rw [newItem_eq] at hit2
  have hst : it.stored = t.UTC := by cases hit2; rfl
  have httl : it.ttl t = (it.origTTL : Int) := item_ttl_at_store it t (by rw [hst]; rfl)
  have hfn : 0 ≤ Int.fdiv d 1000000000 := by
    rw [Int.fdiv_eq_ediv _ (by decide)]; omega
  have hu : uint32 (it.ttl t) = (Int.fdiv d 1000000000).toNat := by
    have h2 : ((uint32 (it.ttl t) : Nat) : Int) = Int.fdiv d 1000000000 := by
      rw [uint32_cast, httl, horig]
      have : Int.fdiv d 1000000000 < 4294967296 := by
        rw [Int.fdiv_eq_ediv _ (by decide)]
        norm_num at h1
        omega
      omega
    omega
  have hex : it.Extra = R.Extra := by
    cases hit2
    show R.Extra.filter (fun e => !(e.Rrtype == TypeOPT)) = R.Extra
    apply List.filter_eq_self.mpr
    intro r hr
    have := hopt r hr
    simp [this]
  have hfl : ∀ l : List RR, renderSection true (uint32 (it.ttl t)) l
      = l.map (fun r => { r with Ttl := (Int.fdiv d 1000000000).toNat }) := by
    intro l
    rw [hu]
    simp [renderSection, RR.setTtl, Copy]
  refine ⟨it, hit, _, toMsg_eq it q t true, ?_, ?_, ?_, ?_, ?_, ?_⟩
  · cases hit2; rfl
  · cases hit2; simp
  · cases hit2; rfl
  · rw [← hfl]; cases hit2; rfl
  · rw [← hfl]; cases hit2; rfl
  · rw [← hfl, ← hex]

/-! ## Monotonicity of the binary64 model -/

theorem roundHalfEven_tie (n d : Nat) (hd : 0 < d)
    (h : 2 * (roundHalfEven n d * d) = 2 * n + d ∨ 2 * n = 2 * (roundHalfEven n d * d) + d) :
    roundHalfEven n d % 2 = 0 := by
  have h1 : d * (n / d) + n % d = n := Nat.div_add_mod n d
  have h2 : n % d < d := Nat.mod_lt n hd
  generalize hq : n / d = q at h1
  generalize hr : n % d = r at h1 h2
  have e1 : q * d = d * q := Nat.mul_comm q d
  have e2 : (q + 1) * d = d * q + d := by rw [Nat.add_mul, Nat.one_mul, e1]
  unfold roundHalfEven at h ⊢
  simp only [hq, hr] at h ⊢
  generalize hp : d * q = P at h1 e1 e2
  split_ifs at h ⊢ <;> simp only [e1, e2] at h <;> omega

theorem roundHalfEven_tie_abs (n d : Nat) (hd : 0 < d)
    (h : |((roundHalfEven n d : ℕ) : ℚ) - (n : ℚ) / d| = 1 / 2) :
    roundHalfEven n d % 2 = 0 := by
  have hd0 : (0 : ℚ) < d := by exact_mod_cast hd
  have hdne : (d : ℚ) ≠ 0 := hd0.ne'
  apply roundHalfEven_tie n d hd
  rcases abs_eq (by norm_num : (0 : ℚ) ≤ 1 / 2) |>.mp h with h1 | h1
  · left
    have h2 : (2 : ℚ) * ((roundHalfEven n d : ℕ) * d) = 2 * n + d := by
      have : ((roundHalfEven n d : ℕ) : ℚ) = (n : ℚ) / d + 1 / 2 := by linarith
      rw [this]; field_simp; ring
    exact_mod_cast h2
  · right
    have h2 : (2 : ℚ) * n = 2 * ((roundHalfEven n d : ℕ) * d) + d := by
      have : ((roundHalfEven n d : ℕ) : ℚ) = (n : ℚ) / d - 1 / 2 := by linarith
      rw [this]; field_simp; ring
    exact_mod_cast h2

theorem roundFrac_tieEven (neg : Bool) (n d : Nat) (hd : 0 < d) :
    IsTieEven ((n : ℚ) / d) (roundFrac neg n d) := by
  unfold IsTieEven
  rcases Nat.eq_zero_or_pos n with h0 | hn
  · subst h0
    intro _
    simp [roundFrac]
  · have hn0 : n ≠ 0 := hn.ne'
    unfold roundFrac
    simp only [hn0, if_false]
    intro h
    rw [← scaleBy_val n d _ hd] at h
    exact roundHalfEven_tie_abs _ _ (scaleBy_pos n d _ hd) h

/-- Rounding to nearest, ties to even, is monotone. -/
theorem rounded_mono {x y : ℚ} {a b : F64} (hx : IsRounded x a) (hy : IsRounded y b)
    (tx : IsTieEven x a) (ty : IsTieEven y b) (hxy : x ≤ y) : a.mag ≤ b.mag := by
  have two0 : (2 : ℚ) ≠ 0 := by norm_num
  rcases hx with ⟨_, hm⟩ | ⟨hxpos, ha1, ha2, ha3⟩
  · have : a.mag = 0 := by simp [F64.mag, hm]
    rw [this]; exact mag_nonneg b
  · rcases hy with ⟨hy0, _⟩ | ⟨hypos, hb1, hb2, hb3⟩
    · exact absurd (lt_of_lt_of_le hxpos hxy) (by rw [hy0]; exact lt_irrefl 0)
    · have hee : a.exp ≤ b.exp := by
        have h1 : (2 : ℚ) ^ (a.exp + 52) < (2 : ℚ) ^ (b.exp + 53) :=
          lt_of_le_of_lt ha1 (lt_of_le_of_lt hxy hb2)
        have := (zpow_lt_zpow_iff_right₀ (by norm_num : (1 : ℚ) < 2)).mp h1
        omega
      have hua : (0 : ℚ) < (2 : ℚ) ^ a.exp := zpow_pos (by norm_num) _
      have hub : (0 : ℚ) < (2 : ℚ) ^ b.exp := zpow_pos (by norm_num) _
      obtain ⟨ha3l, ha3u⟩ := abs_le.mp ha3
      obtain ⟨hb3l, hb3u⟩ := abs_le.mp hb3
      rcases hee.lt_or_eq with hlt | heq
      · -- different binades: the smaller value stays at or below the power of two between them
        have h53 : x / (2 : ℚ) ^ a.exp < (2 : ℚ) ^ (53 : ℕ) := by
          rw [div_lt_iff₀ hua, ← zpow_natCast, ← zpow_add₀ two0]
          have : ((53 : ℕ) : ℤ) + a.exp = a.exp + 53 := by push_cast; ring
          rw [this]; exact ha2
        have h52 : (2 : ℚ) ^ (52 : ℕ) ≤ y / (2 : ℚ) ^ b.exp := by
          rw [le_div_iff₀ hub, ← zpow_natCast, ← zpow_add₀ two0]
          have : ((52 : ℕ) : ℤ) + b.exp = b.exp + 52 := by push_cast; ring
          rw [this]; exact hb1
        have hma : a.mant ≤ 2 ^ 53 := by
          by_contra hc
          have h1 : 2 ^ 53 + 1 ≤ a.mant := by omega
          have h2 : ((2 ^ 53 + 1 : ℕ) : ℚ) ≤ (a.mant : ℚ) := by exact_mod_cast h1
          push_cast at h2
          linarith
        have hmb : 2 ^ 52 ≤ b.mant := by
          by_contra hc
          have h1 : b.mant + 1 ≤ 2 ^ 52 := by omega
          have h2 : ((b.mant + 1 : ℕ) : ℚ) ≤ ((2 ^ 52 : ℕ) : ℚ) := by exact_mod_cast h1
          push_cast at h2
          linarith
        have hmaq : (a.mant : ℚ) ≤ (2 : ℚ) ^ (53 : ℕ) := by exact_mod_cast hma
        have hmbq : (2 : ℚ) ^ (52 : ℕ) ≤ (b.mant : ℚ) := by exact_mod_cast hmb
        calc a.mag = (a.mant : ℚ) * (2 : ℚ) ^ a.exp := rfl
          _ ≤ (2 : ℚ) ^ (53 : ℕ) * (2 : ℚ) ^ a.exp := mul_le_mul_of_nonneg_right hmaq hua.le
          _ = (2 : ℚ) ^ (a.exp + 53) := by
              rw [← zpow_natCast, ← zpow_add₀ two0]; congr 1; push_cast; ring
          _ ≤ (2 : ℚ) ^ (b.exp + 52) := zpow_le_zpow_right₀ (by norm_num) (by omega)
          _ = (2 : ℚ) ^ (52 : ℕ) * (2 : ℚ) ^ b.exp := by
              rw [← zpow_natCast, ← zpow_add₀ two0]; congr 1; push_cast; ring
          _ ≤ (b.mant : ℚ) * (2 : ℚ) ^ b.exp := mul_le_mul_of_nonneg_right hmbq hub.le
          _ = b.mag := rfl
      · -- same binade: the nearer integers are ordered, and a tie is broken the same way
        have hXY : x / (2 : ℚ) ^ a.exp ≤ y / (2 : ℚ) ^ b.exp := by
          rw [← heq]; exact div_le_div_of_nonneg_right hxy hua.le
        have hm : a.mant ≤ b.mant := by
          by_contra hc
          have h1 : b.mant + 1 ≤ a.mant := by omega
          have h2 : ((b.mant + 1 : ℕ) : ℚ) ≤ (a.mant : ℚ) := by exact_mod_cast h1
          push_cast at h2
          have e1 : (a.mant : ℚ) - x / (2 : ℚ) ^ a.exp = 1 / 2 := by linarith
          have e2 : (b.mant : ℚ) - y / (2 : ℚ) ^ b.exp = -(1 / 2) := by linarith
          have e3 : (a.mant : ℚ) = b.mant + 1 := by linarith
          have p1 := tx (by rw [e1]; norm_num)
          have p2 := ty (by rw [e2]; norm_num)
          have e4 : a.mant = b.mant + 1 := by exact_mod_cast e3
          omega
        have hmq : (a.mant : ℚ) ≤ (b.mant : ℚ) := by exact_mod_cast hm
        calc a.mag = (a.mant : ℚ) * (2 : ℚ) ^ a.exp := rfl
          _ ≤ (b.mant : ℚ) * (2 : ℚ) ^ a.exp := mul_le_mul_of_nonneg_right hmq hua.le
          _ = b.mag := by rw [heq]; rfl

theorem div_tieEven (a b : F64) (hb : 0 < b.mant) :
    IsTieEven (a.mag / b.mag) (F64.div a b) := by
  have h := roundFrac_tieEven (xor a.neg b.neg) (scaleBy a.mant b.mant (b.exp - a.exp)).1
    (scaleBy a.mant b.mant (b.exp - a.exp)).2 (scaleBy_pos _ _ _ hb)
  rw [scaleBy_val _ _ _ hb] at h
  have two0 : (2 : ℚ) ≠ 0 := by norm_num
  have hb0 : (b.mant : ℚ) ≠ 0 := by exact_mod_cast hb.ne'
  have e : ((a.mant : ℚ) / b.mant) / (2 : ℚ) ^ (b.exp - a.exp) = a.mag / b.mag := by
    unfold F64.mag
    rw [zpow_sub₀ two0]
    have h1 : (2 : ℚ) ^ a.exp ≠ 0 := zpow_ne_zero _ two0
    have h2 : (2 : ℚ) ^ b.exp ≠ 0 := zpow_ne_zero _ two0
    field_simp
  rw [e] at h
  exact h

/-- The sum of two values of the same sign is the rounding of a fraction equal to the sum of
their magnitudes. -/
theorem add_eq_roundFrac (a b : F64) (sg : Bool) (ha : a.mant = 0 ∨ a.neg = sg)
    (hb : b.mant = 0 ∨ b.neg = sg) :
    ∃ (fl : Bool) (n d : Nat), 0 < d ∧ (n : ℚ) / d = a.mag + b.mag ∧
      F64.add a b = roundFrac fl n d := by
  have two0 : (2 : ℚ) ≠ 0 := by norm_num
  unfold F64.add
  simp only []
  generalize he : min a.exp b.exp = e
  have hea : e ≤ a.exp := by rw [← he]; exact min_le_left _ _
  have heb : e ≤ b.exp := by rw [← he]; exact min_le_right _ _
  rw [signedMant_eq a e sg ha, signedMant_eq b e sg hb]
  generalize hA : a.mant * 2 ^ (a.exp - e).toNat = mA
  generalize hB : b.mant * 2 ^ (b.exp - e).toNat = mB
  have hmA : (mA : ℚ) * (2 : ℚ) ^ e = a.mag := by rw [← hA]; exact shifted_mag a e hea
  have hmB : (mB : ℚ) * (2 : ℚ) ^ e = b.mag := by rw [← hB]; exact shifted_mag b e heb
  have hs : ((if sg then -1 else 1) * (mA : ℤ) + (if sg then -1 else 1) * (mB : ℤ)).natAbs
      = mA + mB := by
    cases sg <;> simp <;> omega
  rw [hs]
  have hv : (((scaleBy (mA + mB) 1 (-e)).1 : ℚ)) / ((scaleBy (mA + mB) 1 (-e)).2 : ℚ)
      = a.mag + b.mag := by
    rw [scaleBy_val _ _ _ (by norm_num), ← hmA, ← hmB, zpow_neg]
    push_cast
    field_simp
    ring
  exact ⟨_, _, _, scaleBy_pos _ _ _ (by norm_num), hv, rfl⟩

theorem add_tieEven (a b : F64) (sg : Bool) (ha : a.mant = 0 ∨ a.neg = sg)
    (hb : b.mant = 0 ∨ b.neg = sg) : IsTieEven (a.mag + b.mag) (F64.add a b) := by
  obtain ⟨fl, n, d, hd, hv, he⟩ := add_eq_roundFrac a b sg ha hb
  rw [he, ← hv]
  exact roundFrac_tieEven fl n d hd

/-- The anatomy of `d.Seconds()` for a duration in the int64 range: the fraction of a second is
rounded to a value `Q` below one, and the result is the rounding of the whole seconds plus `Q`,
with the sign of the duration. -/
theorem seconds_parts (d : Int) (hd : d.natAbs ≤ 2 ^ 63) :
    ∃ Q : F64,
      IsRounded (((d.natAbs % 1000000000 : ℕ) : ℚ) / ((1000000000 : ℕ) : ℚ)) Q ∧
      IsTieEven (((d.natAbs % 1000000000 : ℕ) : ℚ) / ((1000000000 : ℕ) : ℚ)) Q ∧
      Q.mag < 1 ∧
      IsRounded (((d.natAbs / 1000000000 : ℕ) : ℚ) + Q.mag) (Duration.Seconds d) ∧
      IsTieEven (((d.natAbs / 1000000000 : ℕ) : ℚ) + Q.mag) (Duration.Seconds d) ∧
      (0 < ((d.natAbs / 1000000000 : ℕ) : ℚ) + Q.mag →
        (Duration.Seconds d).neg = decide (d < 0)) := by
  obtain ⟨t1, t2, t3, t4, _⟩ := tdiv_tmod_second d
  unfold Duration.Seconds
  simp only []
  generalize hsec : Int.tdiv d Second = sec at t1 t3
  generalize hnsec : Int.tmod d Second = nsec at t2 t4
  have hA0 := ofInt_isRounded sec
  have hB0 := ofInt_isRounded nsec
  have hC0 := ofInt_isRounded 1000000000
  rw [t1] at hA0
  rw [t2] at hB0
  have hKlt : d.natAbs / 1000000000 < 2 ^ 53 := by
    have : d.natAbs / 1000000000 ≤ 2 ^ 63 / 1000000000 := Nat.div_le_div_right hd
    norm_num at this ⊢
    omega
  have hRlt : d.natAbs % 1000000000 < 1000000000 := Nat.mod_lt _ (by norm_num)
  have hA : (F64.ofInt sec).mag = ((d.natAbs / 1000000000 : ℕ) : ℚ) := isRounded_nat hA0 hKlt
  have hB : (F64.ofInt nsec).mag = ((d.natAbs % 1000000000 : ℕ) : ℚ) :=
    isRounded_nat hB0 (by norm_num; omega)
  have hC : (F64.ofInt 1000000000).mag = ((1000000000 : ℕ) : ℚ) :=
    isRounded_nat hC0 (by norm_num)
  have hCm : 0 < (F64.ofInt 1000000000).mant := by
    rw [← mag_pos_iff, hC]; norm_num
  have hCn : (F64.ofInt 1000000000).neg = false := by
    rw [ofInt_neg_eq]; decide
  have hQ0 := div_isRounded (F64.ofInt nsec) (F64.ofInt 1000000000) hCm
  have hQt := div_tieEven (F64.ofInt nsec) (F64.ofInt 1000000000) hCm
  have hQn := div_neg_eq (F64.ofInt nsec) (F64.ofInt 1000000000)
  rw [hCn, Bool.xor_false, ofInt_neg_eq] at hQn
  rw [hB, hC] at hQ0 hQt
  generalize hQ : F64.div (F64.ofInt nsec) (F64.ofInt 1000000000) = Q at hQ0 hQt hQn ⊢
  generalize hk : d.natAbs / 1000000000 = K at *
  generalize hr : d.natAbs % 1000000000 = r at *
  have hr1 : (r : ℚ) ≤ 1000000000 - 1 := by
    have : r + 1 ≤ 1000000000 := hRlt
    exact_mod_cast (by omega : (r : ℤ) ≤ 1000000000 - 1)
  have hx0 : (0 : ℚ) ≤ ((r : ℕ) : ℚ) / ((1000000000 : ℕ) : ℚ) := by positivity
  have hx1 : ((r : ℕ) : ℚ) / ((1000000000 : ℕ) : ℚ) ≤ 1 - 1 / 1000000000 := by
    rw [div_le_iff₀ (by norm_num)]
    push_cast
    linarith
  have hQb := isRounded_frac_bound hQ0 hx0 (lt_of_le_of_lt hx1 (by norm_num))
  have hQlt : Q.mag < 1 := by
    have : (1 : ℚ) - 1 / 1000000000 + 1 / 2 ^ 54 < 1 := by norm_num
    linarith
  have sA : (F64.ofInt sec).mant = 0 ∨ (F64.ofInt sec).neg = decide (d < 0) := by
    by_cases hm : (F64.ofInt sec).mant = 0
    · exact Or.inl hm
    · right
      have hp := isRounded_mant_pos hA0 hm
      have hK : 0 < K := by exact_mod_cast hp
      have hs : sec ≠ 0 := by
        intro h0; rw [h0] at t1; simp at t1; omega
      rw [ofInt_neg_eq]
      exact decide_eq_decide.mpr (t3 hs)
  have sQ : Q.mant = 0 ∨ Q.neg = decide (d < 0) := by
    by_cases hm : Q.mant = 0
    · exact Or.inl hm
    · right
      have hp := isRounded_mant_pos hQ0 hm
      have hr0 : 0 < r := by
        by_contra h0
        have : r = 0 := by omega
        rw [this] at hp
        simp at hp
      have hs : nsec ≠ 0 := by
        intro h0; rw [h0] at t2; simp at t2; omega
      rw [hQn]
      exact decide_eq_decide.mpr (t4 hs)
  obtain ⟨hR0, hRn⟩ := add_isRounded (F64.ofInt sec) Q (decide (d < 0)) sA sQ
  have hRt := add_tieEven (F64.ofInt sec) Q (decide (d < 0)) sA sQ
  rw [hA] at hR0 hRn hRt
  exact ⟨Q, hQ0, hQt, hQlt, hR0, hRt, hRn⟩

/-- The magnitude of `d.Seconds()` grows with the magnitude of the duration. -/
theorem seconds_mag_mono (d e : Int) (h : d.natAbs ≤ e.natAbs) (he : e.natAbs ≤ 2 ^ 63) :
    (Duration.Seconds d).mag ≤ (Duration.Seconds e).mag := by
  obtain ⟨Q, q1, q2, q3, r1, r2, _⟩ := seconds_parts d (le_trans h he)
  obtain ⟨P, p1, p2, p3, s1, s2, _⟩ := seconds_parts e he
  apply rounded_mono r1 s1 r2 s2
  have hK : d.natAbs / 1000000000 ≤ e.natAbs / 1000000000 := Nat.div_le_div_right h
  rcases hK.lt_or_eq with hlt | heq
  · have h1 : ((d.natAbs / 1000000000 + 1 : ℕ) : ℚ) ≤ ((e.natAbs / 1000000000 : ℕ) : ℚ) := by
      exact_mod_cast hlt
    push_cast at h1
    linarith [mag_nonneg P]
  · have hr : d.natAbs % 1000000000 ≤ e.natAbs % 1000000000 := by
      have a1 := Nat.div_add_mod d.natAbs 1000000000
      have a2 := Nat.div_add_mod e.natAbs 1000000000
      omega
    have hq : (((d.natAbs % 1000000000 : ℕ) : ℚ) / ((1000000000 : ℕ) : ℚ)) ≤
        (((e.natAbs % 1000000000 : ℕ) : ℚ) / ((1000000000 : ℕ) : ℚ)) := by
      apply div_le_div_of_nonneg_right _ (by norm_num)
      exact_mod_cast hr
    have hm := rounded_mono q1 p1 q2 p2 hq
    rw [heq]
    linarith

/-- The conversion `int(d.Seconds())` is the floor of the magnitude of `d.Seconds()`, with the
sign of the duration. -/
theorem seconds_toInt_floor (d : Int) (hd : d.natAbs ≤ 2 ^ 63) :
    (Duration.Seconds d).toInt =
      if d < 0 then -((⌊(Duration.Seconds d).mag⌋₊ : ℕ) : ℤ)
      else ((⌊(Duration.Seconds d).mag⌋₊ : ℕ) : ℤ) := by
  obtain ⟨Q, _, _, _, r1, _, hn⟩ := seconds_parts d hd
  have hnn := mag_nonneg (Duration.Seconds d)
  rw [toInt_of_mag (Duration.Seconds d) ⌊(Duration.Seconds d).mag⌋₊ (Nat.floor_le hnn)
    (Nat.lt_floor_add_one _)]
  rcases Nat.eq_zero_or_pos ⌊(Duration.Seconds d).mag⌋₊ with h0 | hpos
  · rw [h0]; simp
  · have hmpos : 0 < (Duration.Seconds d).mag := by
      have h1 := Nat.floor_le hnn
      have h2 : (1 : ℚ) ≤ ((⌊(Duration.Seconds d).mag⌋₊ : ℕ) : ℚ) := by exact_mod_cast hpos
      linarith
    have hm : (Duration.Seconds d).mant ≠ 0 := by
      have := (mag_pos_iff _).mp hmpos
      omega
    rw [hn (isRounded_mant_pos r1 hm)]
    by_cases hneg : d < 0 <;> simp [hneg]

/-- The conversion `int(d.Seconds())` is monotone over the int64 durations. -/
theorem seconds_toInt_mono (d e : Int) (hd : d.natAbs ≤ 2 ^ 63) (he : e.natAbs ≤ 2 ^ 63)
    (h : d ≤ e) : (Duration.Seconds d).toInt ≤ (Duration.Seconds e).toInt := by
  rw [seconds_toInt_floor d hd, seconds_toInt_floor e he]
  by_cases h1 : d < 0
  · by_cases h2 : e < 0
    · rw [if_pos h1, if_pos h2]
      have hm := seconds_mag_mono e d (by omega) hd
      have := Nat.floor_mono hm
      omega
    · rw [if_pos h1, if_neg h2]
      omega
  · have h2 : ¬ e < 0 := by omega
    rw [if_neg h1, if_neg h2]
    have hm := seconds_mag_mono d e (by omega) he
    have := Nat.floor_mono hm
    omega

/-- The saturated difference of two instants is an int64 duration, monotone in the later
instant. -/
theorem sub_bounds_mono (t1 t2 u : Time) (h : t1.nanos ≤ t2.nanos) :
    (t1.UTC.Sub u).natAbs ≤ 2 ^ 63 ∧ (t2.UTC.Sub u).natAbs ≤ 2 ^ 63 ∧
      t1.UTC.Sub u ≤ t2.UTC.Sub u := by
  unfold Time.Sub Time.UTC minDuration maxDuration
  simp only []
  norm_num
  refine ⟨?_, ?_, ?_⟩
  · split_ifs <;> omega
  · split_ifs <;> omega
  · split_ifs <;> omega

/-- The remaining lifetime never grows as the read instant advances. -/
theorem item_ttl_antitone (i : item) (t1 t2 : Time) (h : t1.nanos ≤ t2.nanos) :
    i.ttl t2 ≤ i.ttl t1 := by
  obtain ⟨b1, b2, hm⟩ := sub_bounds_mono t1 t2 i.stored h
  have := seconds_toInt_mono _ _ b1 b2 hm
  unfold item.ttl
  omega

/-! ## Rendering over a store -/

theorem derefAll_append (st ext : List RR) :
    ∀ (ps : List Nat) (rs : List RR), derefAll st ps = some rs →
      derefAll (st ++ ext) ps = some rs := by
  intro ps
  induction ps with
  | nil => intro rs h; simpa [derefAll] using h
  | cons p ps ih =>
    intro rs h
    unfold derefAll at h ⊢
    cases hp : st[p]? with
    | none => simp [hp] at h
    | some x =>
      cases hq : derefAll st ps with
      | none => simp [hp, hq] at h
      | some xs =>
        have hlt : p < st.length := by
          by_contra hc
          have : st[p]? = none := List.getElem?_eq_none (by omega)
          rw [this] at hp
          cases hp
        rw [List.getElem?_append_left hlt, hp, ih xs hq]
        simpa [hp, hq] using h

theorem derefAll_cons_some {st : List RR} {p : Nat} {ps : List Nat} {rs : List RR}
    (h : derefAll st (p :: ps) = some rs) :
    ∃ x xs, st[p]? = some x ∧ derefAll st ps = some xs ∧ rs = x :: xs := by
  unfold derefAll at h
  cases hp : st[p]? with
  | none => simp [hp] at h
  | some x =>
    cases hq : derefAll st ps with
    | none => simp [hp, hq] at h
    | some xs =>
      simp only [hp, hq, Option.some.injEq] at h
      exact ⟨x, xs, rfl, rfl, h.symm⟩

theorem storeTtl_allocCopy (st : List RR) (r : RR) (ttl : Nat) :
    storeTtl (allocCopy st r).1 (allocCopy st r).2 ttl = some (st ++ [(Copy r).setTtl ttl]) := by
  simp [storeTtl, allocCopy]

theorem set_append_cons_addr (w : List (Option Nat)) (a x : Option Nat)
    (r : List (Option Nat)) : (w ++ a :: r).set w.length x = w ++ x :: r := by
  induction w with
  | nil => rfl
  | cons b w ih => simp [List.set, ih]

theorem addresses_map_some (l : List Nat) : addresses (l.map some) = some l := by
  induction l with
  | nil => rfl
  | cons a l ih => simp [addresses, ih]

/-- The loop over addresses, started on a destination `w ++ r` at `j = len(w)` with room for
every source record: it appends a copy of every kept record, with the new TTL, to the store,
leaves the cells already in the store as they are, and stores the fresh addresses. -/
theorem compactLoopRef_spec (skip : RR → Bool) (ttl : Nat) :
    ∀ (src : List Nat) (rs : List RR) (st : List RR) (w r : List (Option Nat)),
      derefAll st src = some rs → src.length ≤ r.length →
      compactLoopRef skip ttl src st (w ++ r) w.length =
        some (st ++ (rs.filter (fun x => !skip x)).map (fun x => (Copy x).setTtl ttl),
              w ++ (List.range' st.length (rs.filter (fun x => !skip x)).length).map some ++
                r.drop (rs.filter (fun x => !skip x)).length,
              w.length + (rs.filter (fun x => !skip x)).length) := by
  intro src
  induction src with
  | nil =>
    intro rs st w r h _
    simp only [derefAll, Option.some.injEq] at h
    subst h
    simp [compactLoopRef]
  | cons p ps ih =>
    intro rs st w r h hlen
    obtain ⟨x, xs, hp, hq, rfl⟩ := derefAll_cons_some h
    cases r with
    | nil => simp at hlen
    | cons a r1 =>
      simp only [List.length_cons, Nat.add_le_add_iff_right] at hlen
      by_cases hs : skip x = true
      · have h1 := ih xs st w (a :: r1) hq (by simp; omega)
        simp only [compactLoopRef, hp, hs, if_true]
        rw [h1]
        simp [List.filter, hs]
      · have hs1 : skip x = false := by simpa using hs
        have hq2 : derefAll (st ++ [(Copy x).setTtl ttl]) ps = some xs :=
          derefAll_append st _ ps xs hq
        have h1 := ih xs (st ++ [(Copy x).setTtl ttl]) (w ++ [some st.length]) r1 hq2 hlen
        have hj : w.length < (w ++ a :: r1).length := by simp
        simp only [compactLoopRef, hp, hs1, hj, if_true, storeTtl_allocCopy]
        have hset : (w ++ a :: r1).set w.length (some (allocCopy st x).2)
            = (w ++ [some st.length]) ++ r1 := by
          rw [set_append_cons_addr]; simp [allocCopy]
        simp only [Bool.false_eq_true, if_false, hset]
        simp only [List.length_append, List.length_singleton] at h1
        rw [h1]
        simp [List.filter, hs1, Nat.add_assoc, Nat.add_comm 1, List.range'_succ]

/-- A whole compaction over addresses never panics on allocated addresses: the store grows by
the copies and the result is the slice of their addresses. -/
theorem compactRef_eq (skip : RR → Bool) (ttl : Nat) (src : List Nat) (rs : List RR)
    (st : List RR) (h : derefAll st src = some rs) :
    compactRef skip ttl src st =
      some (st ++ (rs.filter (fun x => !skip x)).map (fun x => (Copy x).setTtl ttl),
            List.range' st.length (rs.filter (fun x => !skip x)).length) := by
  have hs := compactLoopRef_spec skip ttl src rs st [] (List.replicate src.length none) h
    (by simp)
  simp only [List.nil_append, List.length_nil, Nat.zero_add] at hs
  simp only [compactRef, hs]
  simp [addresses_map_some]

/-- The addresses of freshly appended cells point to these cells, whatever is appended later. -/
theorem derefAll_range (news : List RR) :
    ∀ (st more : List RR),
      derefAll (st ++ news ++ more) (List.range' st.length news.length) = some news := by
  induction news with
  | nil => intro st more; simp [derefAll]
  | cons x xs ih =>
    intro st more
    have h1 := ih (st ++ [x]) more
    simp only [List.length_append, List.length_singleton, List.append_assoc,
      List.singleton_append] at h1
    simp only [List.length_cons, List.range'_succ, derefAll, List.append_assoc,
      List.cons_append]
    have h2 : (st ++ x :: (xs ++ more))[st.length]? = some x := by
      rw [List.getElem?_append_right (Nat.le_refl _)]
      simp
    simp only [List.cons_append] at h1
    rw [h2, h1]

theorem view_some {i : itemRef} {st : List RR} {it : item} (h : i.view st = some it) :
    derefAll st i.Answer = some it.Answer ∧ derefAll st i.Ns = some it.Ns ∧
    derefAll st i.Extra = some it.Extra ∧ it.Rcode = i.Rcode ∧
    it.AuthenticatedData = i.AuthenticatedData ∧
    it.RecursionAvailable = i.RecursionAvailable ∧ it.origTTL = i.origTTL ∧
    it.stored = i.stored := by
  unfold itemRef.view at h
  cases ha : derefAll st i.Answer with
  | none => simp [ha] at h
  | some a =>
    cases hn : derefAll st i.Ns with
    | none => simp [ha, hn] at h
    | some n =>
      cases he : derefAll st i.Extra with
      | none => simp [ha, hn, he] at h
      | some e =>
        simp only [ha, hn, he, Option.some.injEq] at h
        subst h
        exact ⟨rfl, rfl, rfl, rfl, rfl, rfl, rfl, rfl⟩

theorem view_append {i : itemRef} {st : List RR} {it : item} (ext : List RR)
    (h : i.view st = some it) : i.view (st ++ ext) = some it := by
  obtain ⟨ha, hn, he, _⟩ := view_some h
  have h2 := h
  unfold itemRef.view at h2 ⊢
  rw [derefAll_append st ext _ _ ha, derefAll_append st ext _ _ hn,
    derefAll_append st ext _ _ he]
  rw [ha, hn, he] at h2
  exact h2

/-- Rendering over a store, in closed form, for an entry whose addresses are allocated: the
store is extended by the rendered records, nothing else is written, and the reply denotes the
message the pure `toMsg` builds. -/
theorem toMsgRef_eq (i : itemRef) (st : List RR) (it : item) (q : Msg) (now : Time)
    (doBit : Bool) (h : i.view st = some it) :
    ∃ (ext : List RR) (m : MsgRef),
      i.toMsg st q now doBit = some (st ++ ext, i, m) ∧
      (∀ more : List RR, m.view (st ++ ext ++ more) = it.toMsg q now doBit) ∧
      (∀ a ∈ m.Answer ++ m.Ns ++ m.Extra, st.length ≤ a) := by
  obtain ⟨ha, hn, he, h1, h2, h3, h4, h5⟩ := view_some h
  have httl : (i.origTTL : Int) - (Duration.Seconds (now.UTC.Sub i.stored)).toInt = it.ttl now := by
    unfold item.ttl; rw [h4, h5]
  generalize hsk : (fun r => !doBit && isDNSSEC r) = skip
  have hrs : ∀ l : List RR, (l.filter (fun x => !skip x)).map
      (fun x => (Copy x).setTtl (uint32 (it.ttl now))) = renderSection doBit (uint32 (it.ttl now)) l := by
    intro l; rw [← hsk]; rfl
  have e1 := compactRef_eq skip (uint32 (it.ttl now)) i.Answer it.Answer st ha
  have e2 := compactRef_eq skip (uint32 (it.ttl now)) i.Ns it.Ns
    (st ++ renderSection doBit (uint32 (it.ttl now)) it.Answer)
    (derefAll_append st _ _ _ hn)
  have e3 := compactRef_eq skip (uint32 (it.ttl now)) i.Extra it.Extra
    (st ++ renderSection doBit (uint32 (it.ttl now)) it.Answer ++
      renderSection doBit (uint32 (it.ttl now)) it.Ns)
    (derefAll_append _ _ _ _ (derefAll_append st _ _ _ he))
  rw [hrs] at e1 e2 e3
  generalize hA : renderSection doBit (uint32 (it.ttl now)) it.Answer = nA at e1 e2 e3
  generalize hN : renderSection doBit (uint32 (it.ttl now)) it.Ns = nN at e2 e3
  generalize hE : renderSection doBit (uint32 (it.ttl now)) it.Extra = nE at e3
  have hlenA : ((it.Answer.filter (fun x => !skip x)).length) = nA.length := by
    rw [← hA, ← hrs]; simp
  have hlenN : ((it.Ns.filter (fun x => !skip x)).length) = nN.length := by
    rw [← hN, ← hrs]; simp
  have hlenE : ((it.Extra.filter (fun x => !skip x)).length) = nE.length := by
    rw [← hE, ← hrs]; simp
  rw [hlenA] at e1
  rw [hlenN] at e2
  rw [hlenE] at e3
  refine ⟨nA ++ nN ++ nE,
    { hdr := i.replyHeader q doBit, Answer := List.range' st.length nA.length,
      Ns := List.range' (st ++ nA).length nN.length,
      Extra := List.range' (st ++ nA ++ nN).length nE.length }, ?_, ?_, ?_⟩
  · unfold itemRef.toMsg
    simp only [httl, hsk, e1, e2, e3]
    simp [List.append_assoc]
  · intro more
    rw [toMsg_eq, hA, hN, hE]
    unfold MsgRef.view itemRef.replyHeader
    simp only []
    have dA : derefAll (st ++ (nA ++ nN ++ nE) ++ more) (List.range' st.length nA.length)
        = some nA := by
      have := derefAll_range nA st (nN ++ nE ++ more)
      simpa [List.append_assoc] using this
    have dN : derefAll (st ++ (nA ++ nN ++ nE) ++ more)
        (List.range' (st ++ nA).length nN.length) = some nN := by
      have := derefAll_range nN (st ++ nA) (nE ++ more)
      simpa [List.append_assoc] using this
    have dE : derefAll (st ++ (nA ++ nN ++ nE) ++ more)
        (List.range' (st ++ nA ++ nN).length nE.length) = some nE := by
      have := derefAll_range nE (st ++ nA ++ nN) more
      simpa [List.append_assoc] using this
    rw [dA, dN, dE, ← h1, ← h2, ← h3]
    cases doBit <;> simp
  · intro a hmem
    simp only [List.mem_append, List.mem_range'_1, List.length_append] at hmem
    omega

/-! ## The claims -/

set_option maxRecDepth 100000

/-- C1: the additional section stored by `newItem` is the response's additional section with
every OPT record removed and the other records kept in order; it holds no OPT record. -/
theorem newItem_extra_without_OPT (R : Msg) (t : Time) (ttl : Int) :
    ∃ it, newItem R t ttl = some it ∧
      it.Extra = R.Extra.filter (fun e => decide (e.Rrtype ≠ TypeOPT)) ∧
      (∀ e ∈ it.Extra, e.Rrtype ≠ TypeOPT) := by
  have hf : (fun e : RR => !(e.Rrtype == TypeOPT)) = (fun e => decide (e.Rrtype ≠ TypeOPT)) := by
    funext e; by_cases h : e.Rrtype = TypeOPT <;> simp [h]
  refine ⟨_, newItem_eq R t ttl, ?_, ?_⟩
  · simp only [hf]
  · intro e he
    simp only [hf, List.mem_filter, decide_eq_true_eq] at he
    exact he.2

/-- C1, on an example: an additional section `[OPT, A]` is stored as `[A]`. -/
theorem newItem_extra_without_OPT_witness :
    exampleResponse.Extra = [exampleOPT, exampleA] ∧
    ∃ it, newItem exampleResponse { nanos := 0, loc := 0 } 30000000000 = some it ∧
      it.Extra = [exampleA] := by
  obtain ⟨it, h1, h2, _⟩ :=
    newItem_extra_without_OPT exampleResponse { nanos := 0, loc := 0 } 30000000000
  exact ⟨rfl, it, h1, by rw [h2]; decide⟩

/-- C2 (the code departs from the claim): an entry with a lifetime of 16777300 seconds is rendered
16777216.999999999 seconds after it was stored. The elapsed whole seconds are 16777216, within
the lifetime, so the claim gives every record the TTL 84; `toMsg` gives 83, because
`Duration.Seconds` rounds the elapsed time to the float64 value 16777217. -/
theorem toMsg_ttl_float_rounding :
    (0 : Int) ≤ 16777216999999999 - (exampleItem 16777300 0).stored.nanos ∧
    Int.fdiv (16777216999999999 - (exampleItem 16777300 0).stored.nanos) 1000000000
      ≤ ((exampleItem 16777300 0).origTTL : Int) ∧
    ((exampleItem 16777300 0).origTTL : Int) -
      Int.fdiv (16777216999999999 - (exampleItem 16777300 0).stored.nanos) 1000000000 = 84 ∧
    (Duration.Seconds 16777216999999999).toInt = 16777217 ∧
    ∃ m, (exampleItem 16777300 0).toMsg exampleQuery { nanos := 16777216999999999, loc := 0 } true
        = some m ∧ m.ttls = [83, 83, 83, 83] := by
  refine ⟨by decide, by decide, by decide, by decide, _, toMsg_eq _ _ _ _, ?_⟩
  decide

/-- C3, as stated, fails: an entry with a lifetime of 30 seconds rendered 31 seconds after it was
stored is expired, its remaining TTL is -1, and the records of the reply carry the TTL
4294967295, which is not -1. -/
theorem toMsg_expired_ttl_counterexample :
    (exampleItem 30 0).ttl { nanos := 31000000000, loc := 0 } = -1 ∧
    ∃ m, (exampleItem 30 0).toMsg exampleQuery { nanos := 31000000000, loc := 0 } true = some m ∧
      m.ttls = [4294967295, 4294967295, 4294967295, 4294967295] ∧
      ∃ r ∈ m.Answer ++ m.Ns ++ m.Extra,
        (r.Ttl : Int) ≠ (exampleItem 30 0).ttl { nanos := 31000000000, loc := 0 } := by
  refine ⟨by decide, _, toMsg_eq _ _ _ _, by decide, ?_⟩
  decide

/-- C3, amended: when the entry is expired `toMsg` does not clamp the TTL to a floor; every
record of the reply carries the remaining TTL converted to uint32, that is reduced modulo 2^32:
0 when the remaining TTL is 0, and 2^32 plus the remaining TTL when it is negative (and not
below -2^32). -/
theorem toMsg_expired_ttl (i : item) (q : Msg) (now : Time) (doBit : Bool)
    (h : i.ttl now ≤ 0) :
    ∃ m, i.toMsg q now doBit = some m ∧
      ∀ r ∈ m.Answer ++ m.Ns ++ m.Extra,
        (r.Ttl : Int) = i.ttl now % 4294967296 ∧
        (i.ttl now = 0 → r.Ttl = 0) ∧
        (-4294967296 ≤ i.ttl now → i.ttl now < 0 → (r.Ttl : Int) = 4294967296 + i.ttl now) := by
  obtain ⟨m, hm, hall⟩ := toMsg_ttl_all i q now doBit
  refine ⟨m, hm, ?_⟩
  intro r hr
  have h1 : (r.Ttl : Int) = i.ttl now % 4294967296 := by
    rw [hall r hr]; exact uint32_cast _
  refine ⟨h1, ?_, ?_⟩
  · intro h0
    rw [h0] at h1
    omega
  · intro h2 h3
    omega

/-- C3, amended, on an example: an entry with a lifetime of 30 seconds rendered 31 seconds after
it was stored. -/
theorem toMsg_expired_ttl_witness :
    (exampleItem 30 0).ttl { nanos := 31000000000, loc := 0 } ≤ 0 ∧
    ∃ m, (exampleItem 30 0).toMsg exampleQuery { nanos := 31000000000, loc := 0 } false = some m ∧
      ∀ r ∈ m.Answer ++ m.Ns ++ m.Extra,
        (r.Ttl : Int) = (exampleItem 30 0).ttl { nanos := 31000000000, loc := 0 } % 4294967296 ∧
        ((exampleItem 30 0).ttl { nanos := 31000000000, loc := 0 } = 0 → r.Ttl = 0) ∧
        (-4294967296 ≤ (exampleItem 30 0).ttl { nanos := 31000000000, loc := 0 } →
          (exampleItem 30 0).ttl { nanos := 31000000000, loc := 0 } < 0 →
          (r.Ttl : Int) = 4294967296 + (exampleItem 30 0).ttl { nanos := 31000000000, loc := 0 }) :=
  ⟨by decide, toMsg_expired_ttl (exampleItem 30 0) exampleQuery { nanos := 31000000000, loc := 0 }
    false (by decide)⟩

/-- C4, as stated, fails: for an entry with a lifetime of 30 seconds stored at instant 1 s and read
at instant 0.5 s, the floor of the elapsed seconds is -1 and the claim gives 31, while
`item.ttl` gives 30. -/
theorem item_ttl_floor_counterexample :
    (exampleItem 30 1000000000).ttl { nanos := 500000000, loc := 0 } = 30 ∧
    ((exampleItem 30 1000000000).origTTL : Int) -
      Int.fdiv (500000000 - (exampleItem 30 1000000000).stored.nanos) 1000000000 = 31 ∧
    (exampleItem 30 1000000000).ttl { nanos := 500000000, loc := 0 } ≠
      ((exampleItem 30 1000000000).origTTL : Int) -
        Int.fdiv (500000000 - (exampleItem 30 1000000000).stored.nanos) 1000000000 := by
  refine ⟨by decide, by decide, by decide⟩

/-- C4, amended: for every entry and every instant less than 2^24 seconds before or after the
store instant, `item.ttl` is the stored lifetime minus the elapsed seconds truncated toward zero,
as a signed integer; this is the floor of the elapsed seconds when the instant is not earlier
than the store instant. -/
theorem item_ttl_truncates (i : item) (now : Time)
    (h : (now.nanos - i.stored.nanos).natAbs < 2 ^ 24 * 1000000000) :
    i.ttl now = (i.origTTL : Int) - Int.tdiv (now.nanos - i.stored.nanos) 1000000000 ∧
    (0 ≤ now.nanos - i.stored.nanos →
      i.ttl now = (i.origTTL : Int) - Int.fdiv (now.nanos - i.stored.nanos) 1000000000) := by
  have h1 := item_ttl_eq i now h
  refine ⟨h1, ?_⟩
  intro h0
  rw [h1, Int.fdiv_eq_tdiv h0 (by decide)]
  rfl

/-- C4, amended, on an example: half a second before the store instant the whole lifetime
remains. -/
theorem item_ttl_truncates_witness :
    (500000000 - (exampleItem 30 1000000000).stored.nanos).natAbs < 2 ^ 24 * 1000000000 ∧
    (exampleItem 30 1000000000).ttl { nanos := 500000000, loc := 0 } =
      ((exampleItem 30 1000000000).origTTL : Int) -
        Int.tdiv (500000000 - (exampleItem 30 1000000000).stored.nanos) 1000000000 :=
  ⟨by decide, (item_ttl_truncates (exampleItem 30 1000000000) { nanos := 500000000, loc := 0 }
    (by decide)).1⟩

/-- C5: when DNSSEC is not desired, no record of type NSEC, NSEC3, DS, RRSIG or SIG appears in the
answer, authority or additional section of the reply, whatever the entry stores. -/
theorem toMsg_suppresses_dnssec (i : item) (q : Msg) (now : Time) :
    ∃ m, i.toMsg q now false = some m ∧
      ∀ r ∈ m.Answer ++ m.Ns ++ m.Extra,
        r.Rrtype ≠ TypeNSEC ∧ r.Rrtype ≠ TypeNSEC3 ∧ r.Rrtype ≠ TypeDS ∧
        r.Rrtype ≠ TypeRRSIG ∧ r.Rrtype ≠ TypeSIG := by
  refine ⟨_, toMsg_eq i q now false, ?_⟩
  intro r hr
  simp only [List.mem_append] at hr
  have key : ∀ l : List RR, r ∈ renderSection false (uint32 (i.ttl now)) l →
      r.Rrtype ≠ TypeNSEC ∧ r.Rrtype ≠ TypeNSEC3 ∧ r.Rrtype ≠ TypeDS ∧
        r.Rrtype ≠ TypeRRSIG ∧ r.Rrtype ≠ TypeSIG := by
    intro l hl
    obtain ⟨r0, _, hk, h⟩ := mem_renderSection hl
    have hk1 : isDNSSEC r0 = false := by
      rcases hk with hk | hk
      · exact absurd hk (by decide)
      · exact hk
    have hty : r.Rrtype = r0.Rrtype := by rw [h]
    have hn : ¬ (isDNSSEC r0 = true) := by rw [hk1]; decide
    rw [isDNSSEC_iff] at hn
    rw [hty]
    refine ⟨?_, ?_, ?_, ?_, ?_⟩ <;> intro hc <;> exact hn (by simp [hc])
  rcases hr with (hr | hr) | hr
  · exact key _ hr
  · exact key _ hr
  · exact key _ hr

/-- C5, on an example: an authority section holding only an NSEC record renders as an empty
authority section when DNSSEC is not desired. -/
theorem toMsg_suppresses_dnssec_witness :
    (exampleItem 30 0).Ns = [exampleNSEC] ∧
    ∃ m, (exampleItem 30 0).toMsg exampleQuery { nanos := 10000000000, loc := 0 } false = some m ∧
      m.Ns = [] := by
  obtain ⟨m, hm, _⟩ :=
    toMsg_suppresses_dnssec (exampleItem 30 0) exampleQuery { nanos := 10000000000, loc := 0 }
  refine ⟨rfl, m, hm, ?_⟩
  rw [toMsg_eq] at hm
  cases hm
  decide

/-- C6: each section of the reply is the entry's section with the records satisfying
`!do && isDNSSEC` removed, the others in their original order and equal to the stored records in
every field but the TTL; with `do` set, every section keeps its number of records. -/
theorem toMsg_sections (i : item) (q : Msg) (now : Time) (doBit : Bool) :
    ∃ m, i.toMsg q now doBit = some m ∧
      m.Answer = (i.Answer.filter (fun r => !(!doBit && isDNSSEC r))).map
        (fun r => { r with Ttl := uint32 (i.ttl now) }) ∧
      m.Ns = (i.Ns.filter (fun r => !(!doBit && isDNSSEC r))).map
        (fun r => { r with Ttl := uint32 (i.ttl now) }) ∧
      m.Extra = (i.Extra.filter (fun r => !(!doBit && isDNSSEC r))).map
        (fun r => { r with Ttl := uint32 (i.ttl now) }) ∧
      (doBit = true → m.Answer.length = i.Answer.length ∧ m.Ns.length = i.Ns.length ∧
        m.Extra.length = i.Extra.length) := by
  refine ⟨_, toMsg_eq i q now doBit, rfl, rfl, rfl, ?_⟩
  intro hd
  subst hd
  simp [renderSection]

/-- C6, on an example: with `do` set the three sections keep their two, one and one records. -/
theorem toMsg_sections_witness :
    ∃ m, (exampleItem 30 0).toMsg exampleQuery { nanos := 10000000000, loc := 0 } true = some m ∧
      m.Answer.length = 2 ∧ m.Ns.length = 1 ∧ m.Extra.length = 1 := by
  obtain ⟨m, hm, _, _, _, hlen⟩ :=
    toMsg_sections (exampleItem 30 0) exampleQuery { nanos := 10000000000, loc := 0 } true
  obtain ⟨h1, h2, h3⟩ := hlen rfl
  exact ⟨m, hm, by rw [h1]; rfl, by rw [h2]; rfl, by rw [h3]; rfl⟩

/-- C7: for both values of `do`, each section of the reply holds as many DNSKEY records as the
entry's section: every stored DNSKEY record is rendered, with the new TTL, in its section. -/
theorem toMsg_keeps_DNSKEY (i : item) (q : Msg) (now : Time) (doBit : Bool) :
    ∃ m, i.toMsg q now doBit = some m ∧
      m.Answer.countP (fun r => r.Rrtype == TypeDNSKEY) =
        i.Answer.countP (fun r => r.Rrtype == TypeDNSKEY) ∧
      m.Ns.countP (fun r => r.Rrtype == TypeDNSKEY) =
        i.Ns.countP (fun r => r.Rrtype == TypeDNSKEY) ∧
      m.Extra.countP (fun r => r.Rrtype == TypeDNSKEY) =
        i.Extra.countP (fun r => r.Rrtype == TypeDNSKEY) ∧
      (∀ r ∈ i.Answer, r.Rrtype = TypeDNSKEY →
        { r with Ttl := uint32 (i.ttl now) } ∈ m.Answer) ∧
      (∀ r ∈ i.Ns, r.Rrtype = TypeDNSKEY → { r with Ttl := uint32 (i.ttl now) } ∈ m.Ns) ∧
      (∀ r ∈ i.Extra, r.Rrtype = TypeDNSKEY →
        { r with Ttl := uint32 (i.ttl now) } ∈ m.Extra) := by
  have key : ∀ l : List RR, ∀ r ∈ l, r.Rrtype = TypeDNSKEY →
      { r with Ttl := uint32 (i.ttl now) } ∈ renderSection doBit (uint32 (i.ttl now)) l := by
    intro l r hr hk
    have hd : isDNSSEC r = false := by
      unfold isDNSSEC
      rw [hk]
      decide
    simp only [renderSection, List.mem_map, List.mem_filter]
    exact ⟨r, ⟨hr, by simp [hd]⟩, rfl⟩
  exact ⟨_, toMsg_eq i q now doBit, countP_renderSection _ _ _, countP_renderSection _ _ _,
    countP_renderSection _ _ _, key _, key _, key _⟩

/-- C7, on an example: the DNSKEY record of the answer section is rendered when DNSSEC is not
desired. -/
theorem toMsg_keeps_DNSKEY_witness :
    ∃ m, (exampleItem 30 0).toMsg exampleQuery { nanos := 10000000000, loc := 0 } false = some m ∧
      m.Answer.countP (fun r => r.Rrtype == TypeDNSKEY) = 1 ∧
      { exampleDNSKEY with Ttl := 20 } ∈ m.Answer := by
  obtain ⟨m, hm, h1, _, _, h4, _, _⟩ :=
    toMsg_keeps_DNSKEY (exampleItem 30 0) exampleQuery { nanos := 10000000000, loc := 0 } false
  refine ⟨m, hm, by rw [h1]; decide, ?_⟩
  have h5 := h4 exampleDNSKEY (by decide) rfl
  have h6 : uint32 ((exampleItem 30 0).ttl { nanos := 10000000000, loc := 0 }) = 20 := by decide
  rw [h6] at h5
  exact h5

/-- C8: `isDNSSEC` holds exactly of the records of type NSEC, NSEC3, DS, RRSIG and SIG; it is
false of every other type, DNSKEY and OPT included. -/
theorem isDNSSEC_exactly (r : RR) :
    (isDNSSEC r = true ↔
      (r.Rrtype = TypeNSEC ∨ r.Rrtype = TypeNSEC3 ∨ r.Rrtype = TypeDS ∨
        r.Rrtype = TypeRRSIG ∨ r.Rrtype = TypeSIG)) ∧
    (r.Rrtype = TypeDNSKEY → isDNSSEC r = false) ∧
    (r.Rrtype = TypeOPT → isDNSSEC r = false) := by
  refine ⟨isDNSSEC_iff r, ?_, ?_⟩
  · intro h
    unfold isDNSSEC
    rw [h]
    decide
  · intro h
    unfold isDNSSEC
    rw [h]
    decide

/-- C8, on examples: the NSEC record is a DNSSEC record, the DNSKEY and OPT records are not. -/
theorem isDNSSEC_exactly_witness :
    isDNSSEC exampleNSEC = true ∧ isDNSSEC exampleDNSKEY = false ∧
      isDNSSEC exampleOPT = false :=
  ⟨(isDNSSEC_exactly exampleNSEC).1.mpr (Or.inl rfl), (isDNSSEC_exactly exampleDNSKEY).2.1 rfl,
    (isDNSSEC_exactly exampleOPT).2.2 rfl⟩

/-- C9: the reply has AuthenticatedData equal to the entry's flag and `do`: false when DNSSEC is
not desired, the stored flag when it is. -/
theorem toMsg_authenticatedData (i : item) (q : Msg) (now : Time) (doBit : Bool) :
    ∃ m, i.toMsg q now doBit = some m ∧
      m.AuthenticatedData = (i.AuthenticatedData && doBit) :=
  ⟨_, toMsg_eq i q now doBit, rfl⟩

/-- C10: the reply has Authoritative set, whatever the entry, the query and `do`. -/
theorem toMsg_authoritative (i : item) (q : Msg) (now : Time) (doBit : Bool) :
    ∃ m, i.toMsg q now doBit = some m ∧ m.Authoritative = true :=
  ⟨_, toMsg_eq i q now doBit, rfl⟩

/-- C11: the additional section of a reply rendered from a freshly built entry holds no OPT
record, although `toMsg` does no OPT filtering of its own: it renders as many OPT records as the
entry it is given holds. -/
theorem toMsg_newItem_without_OPT (R q : Msg) (t now : Time) (ttl : Int) (doBit : Bool) :
    (∃ it, newItem R t ttl = some it ∧
      ∃ m, it.toMsg q now doBit = some m ∧ ∀ r ∈ m.Extra, r.Rrtype ≠ TypeOPT) ∧
    (∀ i : item, ∃ m, i.toMsg q now doBit = some m ∧
      m.Extra.countP (fun r => r.Rrtype == TypeOPT) =
        i.Extra.countP (fun r => r.Rrtype == TypeOPT)) := by
  constructor
  · refine ⟨_, newItem_eq R t ttl, _, toMsg_eq _ q now doBit, ?_⟩
    intro r hr
    obtain ⟨r0, h0, _, h⟩ := mem_renderSection hr
    simp only [List.mem_filter] at h0
    have h1 : r0.Rrtype ≠ TypeOPT := by
      intro hc
      have := h0.2
      simp [hc] at this
    rw [h]
    exact h1
  · intro i
    exact ⟨_, toMsg_eq i q now doBit, countP_OPT_renderSection _ _ _⟩

/-- C11, on an example: the response with additional section `[OPT, A]` is rendered with the
additional section `[A]`, while an entry that does hold an OPT record is rendered with it. -/
theorem toMsg_newItem_without_OPT_witness :
    (∃ it, newItem exampleResponse { nanos := 0, loc := 0 } 30000000000 = some it ∧
      ∃ m, it.toMsg exampleQuery { nanos := 0, loc := 0 } true = some m ∧
        ∀ r ∈ m.Extra, r.Rrtype ≠ TypeOPT) ∧
    (∃ m, ({ exampleItem 30 0 with Extra := [exampleOPT] } : item).toMsg exampleQuery
        { nanos := 0, loc := 0 } true = some m ∧
      m.Extra.countP (fun r => r.Rrtype == TypeOPT) = 1) := by
  obtain ⟨h1, h2⟩ := toMsg_newItem_without_OPT exampleResponse exampleQuery
    { nanos := 0, loc := 0 } { nanos := 0, loc := 0 } 30000000000 true
  refine ⟨h1, ?_⟩
  obtain ⟨m, hm, hc⟩ := h2 ({ exampleItem 30 0 with Extra := [exampleOPT] } : item)
  exact ⟨m, hm, by rw [hc]; decide⟩

/-- C15: `newItem` copies the response code, the AD and RA flags, and the answer and authority
sections of the response as they are, record for record: no filter is applied to these two
sections. -/
theorem newItem_copies (R : Msg) (now : Time) (ttl : Int) :
    ∃ it, newItem R now ttl = some it ∧
      it.Rcode = R.Rcode ∧ it.AuthenticatedData = R.AuthenticatedData ∧
      it.RecursionAvailable = R.RecursionAvailable ∧
      it.Answer = R.Answer ∧ it.Ns = R.Ns :=
  ⟨_, newItem_eq R now ttl, rfl, rfl, rfl, rfl, rfl⟩

/-- C16: the reply has RecursionAvailable and Rcode equal to the entry's stored values, which
replace what the reply shell had set: `SetReply` leaves the success code and a clear RA flag. -/
theorem toMsg_ra_rcode (i : item) (q : Msg) (now : Time) (doBit : Bool) :
    ∃ m, i.toMsg q now doBit = some m ∧
      m.RecursionAvailable = i.RecursionAvailable ∧ m.Rcode = i.Rcode ∧
      (Msg.zero.SetReply q).Rcode = RcodeSuccess ∧
      (Msg.zero.SetReply q).RecursionAvailable = false := by
  refine ⟨_, toMsg_eq i q now doBit, rfl, rfl, ?_, ?_⟩
  · unfold Msg.SetReply
    cases q.Question <;> rfl
  · unfold Msg.SetReply
    cases q.Question <;> simp only [] <;> split <;> rfl

/-- C20: the compaction loops stay in bounds. When the loop reaches a record `r` after the
records `pre`, the index `j` is at most the number of records visited and less than the length
of the destination, so the store at `j` does not panic; at the end `j` is at most the length of
the destination, so the re-slice `[:j]` does not panic; hence `newItem` and `toMsg` never panic,
for every input. -/
theorem compaction_in_bounds (skip : RR → Bool) (f : RR → RR) (pre : List RR) (r : RR)
    (post : List RR) :
    (∃ dst j, compactLoop skip f pre (makeSlice (pre ++ r :: post).length) 0 = some (dst, j) ∧
      compactLoop skip f (pre ++ r :: post) (makeSlice (pre ++ r :: post).length) 0 =
        compactLoop skip f (r :: post) dst j ∧
      j ≤ pre.length ∧ dst.length = (pre ++ r :: post).length ∧ j < dst.length ∧
      (storeAt dst j (f r)).isSome = true) ∧
    (∀ src : List RR, ∃ dst j,
      compactLoop skip f src (makeSlice src.length) 0 = some (dst, j) ∧
      j ≤ src.length ∧ dst.length = src.length ∧ (resliceTo dst j).isSome = true ∧
      (compact skip f src).isSome = true) ∧
    (∀ (R : Msg) (t : Time) (d : Int), (newItem R t d).isSome = true) ∧
    (∀ (i : item) (q : Msg) (now : Time) (doBit : Bool), (i.toMsg q now doBit).isSome = true) := by
  refine ⟨?_, ?_, ?_, ?_⟩
  · obtain ⟨dst, j, h1, _, h3, h4⟩ := compactLoop_prefix skip f pre (r :: post)
    have hlt : j < dst.length := by
      rw [h4]; simp only [List.length_append, List.length_cons]; omega
    refine ⟨dst, j, h1, ?_, h3, h4, hlt, ?_⟩
    · rw [compactLoop_append, h1]
    · simp [storeAt, hlt]
  · intro src
    obtain ⟨dst, j, h1, _, h3, h4⟩ := compactLoop_prefix skip f src []
    simp only [List.append_nil] at h1 h4
    refine ⟨dst, j, h1, h3, h4, ?_, ?_⟩
    · simp [resliceTo, h4, h3]
    · rw [compact_eq]; rfl
  · intro R t d
    rw [newItem_eq]; rfl
  · intro i q now doBit
    rw [toMsg_eq]; rfl

/-- C13, as stated, fails: for an entry stored at instant 0 and read at 0.5 s and at 1 s, the
remaining lifetimes are 30 and 29, which differ by 1, while the floor of the half second between
the two reads is 0. -/
theorem item_ttl_difference_counterexample :
    (exampleItem 30 0).ttl { nanos := 500000000, loc := 0 } = 30 ∧
    (exampleItem 30 0).ttl { nanos := 1000000000, loc := 0 } = 29 ∧
    Int.fdiv (1000000000 - 500000000) 1000000000 = 0 ∧
    (exampleItem 30 0).ttl { nanos := 500000000, loc := 0 } -
        (exampleItem 30 0).ttl { nanos := 1000000000, loc := 0 }
      ≠ Int.fdiv (1000000000 - 500000000) 1000000000 := by
  refine ⟨by decide, by decide, by decide, by decide⟩

/-- C13, amended: for instants `t1 < t2` less than 2^24 seconds from the store instant, the
remaining lifetimes at `t1` and `t2` differ by the floor of `t2 - t1` in seconds up to one
second; when `t1` is not earlier than the store instant the difference is that floor or one
more, the floor exactly when the sub-second part of `t1 - storedAt` is at most that of
`t2 - storedAt`, and one more otherwise. -/
theorem item_ttl_difference (i : item) (t1 t2 : Time)
    (hb1 : (t1.nanos - i.stored.nanos).natAbs < 2 ^ 24 * 1000000000)
    (hb2 : (t2.nanos - i.stored.nanos).natAbs < 2 ^ 24 * 1000000000)
    (hlt : t1.nanos < t2.nanos) :
    Int.fdiv (t2.nanos - t1.nanos) 1000000000 - 1 ≤ i.ttl t1 - i.ttl t2 ∧
    i.ttl t1 - i.ttl t2 ≤ Int.fdiv (t2.nanos - t1.nanos) 1000000000 + 1 ∧
    (i.stored.nanos ≤ t1.nanos →
      Int.fdiv (t2.nanos - t1.nanos) 1000000000 ≤ i.ttl t1 - i.ttl t2) ∧
    (i.stored.nanos ≤ t1.nanos →
      (t1.nanos - i.stored.nanos) % 1000000000 ≤ (t2.nanos - i.stored.nanos) % 1000000000 →
      i.ttl t1 - i.ttl t2 = Int.fdiv (t2.nanos - t1.nanos) 1000000000) ∧
    (i.stored.nanos ≤ t1.nanos →
      (t2.nanos - i.stored.nanos) % 1000000000 < (t1.nanos - i.stored.nanos) % 1000000000 →
      i.ttl t1 - i.ttl t2 = Int.fdiv (t2.nanos - t1.nanos) 1000000000 + 1) := by
  rw [item_ttl_eq i t1 hb1, item_ttl_eq i t2 hb2, tdiv_second_cases, tdiv_second_cases,
    Int.fdiv_eq_ediv _ (by decide)]
  generalize t1.nanos = a at *
  generalize t2.nanos = b at *
  generalize i.stored.nanos = s at *
  generalize (i.origTTL : Int) = o at *
  refine ⟨?_, ?_, ?_, ?_, ?_⟩
  · split <;> split <;> omega
  · split <;> split <;> omega
  · intro h; rw [if_pos (by omega), if_pos (by omega)]; omega
  · intro h hm; rw [if_pos (by omega), if_pos (by omega)]; omega
  · intro h hm; rw [if_pos (by omega), if_pos (by omega)]; omega

/-- C13, amended, on an example: reads at 0.5 s and 1 s after the store instant. -/
theorem item_ttl_difference_witness :
    (500000000 - (exampleItem 30 0).stored.nanos).natAbs < 2 ^ 24 * 1000000000 ∧
    (1000000000 - (exampleItem 30 0).stored.nanos).natAbs < 2 ^ 24 * 1000000000 ∧
    (500000000 : Int) < 1000000000 ∧
    (exampleItem 30 0).ttl { nanos := 500000000, loc := 0 } -
        (exampleItem 30 0).ttl { nanos := 1000000000, loc := 0 }
      ≤ Int.fdiv (1000000000 - 500000000) 1000000000 + 1 :=
  ⟨by decide, by decide, by decide,
    (item_ttl_difference (exampleItem 30 0) { nanos := 500000000, loc := 0 }
      { nanos := 1000000000, loc := 0 } (by decide) (by decide) (by decide)).2.1⟩

/-- C14 (the code departs from the claim): a duration of 16777216.999999999 seconds, below 2^32
seconds, has 16777216 whole seconds, and `newItem` stores 16777217, because `Duration.Seconds`
rounds the duration to the float64 value 16777217. -/
theorem newItem_origTTL_float_rounding :
    (0 : Int) ≤ 16777216999999999 ∧ (16777216999999999 : Int) < 2 ^ 32 * 1000000000 ∧
    Int.fdiv 16777216999999999 1000000000 = 16777216 ∧
    ∃ it, newItem exampleResponse { nanos := 0, loc := 0 } 16777216999999999 = some it ∧
      it.origTTL = 16777217 := by
  refine ⟨by decide, by decide, by decide, _, newItem_eq _ _ _, ?_⟩
  decide

/-- C19 (the code departs from the claim): the example response without its OPT record, stored
for 16777216.999999999 seconds and rendered at once with DNSSEC desired, comes back with the
TTL 16777217 on every record, while the whole seconds of the duration are 16777216. -/
theorem toMsg_newItem_float_rounding :
    (∀ r ∈ ({ exampleResponse with Extra := [exampleA] } : Msg).Extra, r.Rrtype ≠ TypeOPT) ∧
    (0 : Int) ≤ 16777216999999999 ∧ (16777216999999999 : Int) < 2 ^ 32 * 1000000000 ∧
    Int.fdiv 16777216999999999 1000000000 = 16777216 ∧
    ∃ it, newItem { exampleResponse with Extra := [exampleA] } { nanos := 0, loc := 0 }
        16777216999999999 = some it ∧
      ∃ m, it.toMsg exampleQuery { nanos := 0, loc := 0 } true = some m ∧
        m.ttls = [16777217, 16777217, 16777217, 16777217] := by
  refine ⟨by decide, by decide, by decide, by decide, _, newItem_eq _ _ _, _,
    toMsg_eq _ _ _ _, ?_⟩
  decide

/-- C12: for instants `t1 < t2` the remaining lifetime at `t2` is at most the remaining lifetime
at `t1`. -/
theorem item_ttl_monotone (i : item) (t1 t2 : Time) (h : t1.nanos < t2.nanos) :
    i.ttl t2 ≤ i.ttl t1 :=
  item_ttl_antitone i t1 t2 (le_of_lt h)

/-- C12, on an example: reads at the store instant and 10 seconds later. -/
theorem item_ttl_monotone_witness :
    ({ nanos := 0, loc := 0 } : Time).nanos < ({ nanos := 10000000000, loc := 0 } : Time).nanos ∧
    (exampleItem 30 0).ttl { nanos := 10000000000, loc := 0 } ≤
      (exampleItem 30 0).ttl { nanos := 0, loc := 0 } :=
  ⟨by decide, item_ttl_monotone (exampleItem 30 0) { nanos := 0, loc := 0 }
    { nanos := 10000000000, loc := 0 } (by decide)⟩

/-- C17: `toMsg` does not mutate the entry it renders. Run over a store that holds the records
of the entry, it returns the entry with every field as it was, every cell that was in the store
keeps its record (so each stored record keeps its TTL), and the entry still denotes the same
records; the records of the reply are fresh cells, the copies on which the TTL is written. -/
theorem toMsg_frame (i : itemRef) (st : List RR) (it : item) (q : Msg) (now : Time)
    (doBit : Bool) (h : i.view st = some it) :
    ∃ st1 i1 m, i.toMsg st q now doBit = some (st1, i1, m) ∧
      i1 = i ∧ i1.view st1 = some it ∧
      st.length ≤ st1.length ∧ (∀ a, a < st.length → st1[a]? = st[a]?) ∧
      (∀ a ∈ m.Answer ++ m.Ns ++ m.Extra, st.length ≤ a) ∧
      m.view st1 = it.toMsg q now doBit := by
  obtain ⟨ext, m, h1, h2, h3⟩ := toMsgRef_eq i st it q now doBit h
  refine ⟨st ++ ext, i, m, h1, rfl, view_append ext h, by simp, ?_, h3, ?_⟩
  · intro a ha
    exact List.getElem?_append_left ha
  · have := h2 []
    simpa using this

/-- C17, on an example: the entry over the example store, rendered 10 seconds after it was
stored. -/
theorem toMsg_frame_witness :
    exampleItemRef.view exampleStore = some (exampleItem 30 0) ∧
    ∃ st1 i1 m, exampleItemRef.toMsg exampleStore exampleQuery
        { nanos := 10000000000, loc := 0 } true = some (st1, i1, m) ∧
      i1 = exampleItemRef ∧ i1.view st1 = some (exampleItem 30 0) ∧
      (∀ a, a < exampleStore.length → st1[a]? = exampleStore[a]?) := by
  obtain ⟨st1, i1, m, h1, h2, h3, _, h5, _⟩ :=
    toMsg_frame exampleItemRef exampleStore (exampleItem 30 0) exampleQuery
      { nanos := 10000000000, loc := 0 } true (by decide)
  exact ⟨by decide, st1, i1, m, h1, h2, h3, h5⟩

/-- C18: rendering the same entry twice with the same query, instant and `do`, the second time
in the store the first rendering left, gives two replies that denote the same message: the same
header, response code and record sections with the same TTLs; the second rendering leaves the
first reply as it was. -/
theorem toMsg_twice (i : itemRef) (st : List RR) (it : item) (q : Msg) (now : Time)
    (doBit : Bool) (h : i.view st = some it) :
    ∃ st1 i1 m1 st2 i2 m2 M,
      i.toMsg st q now doBit = some (st1, i1, m1) ∧
      i1.toMsg st1 q now doBit = some (st2, i2, m2) ∧
      m1.view st1 = some M ∧ m2.view st2 = some M ∧ m1.view st2 = some M ∧
      it.toMsg q now doBit = some M := by
  obtain ⟨ext1, m1, a1, a2, _⟩ := toMsgRef_eq i st it q now doBit h
  obtain ⟨ext2, m2, b1, b2, _⟩ :=
    toMsgRef_eq i (st ++ ext1) it q now doBit (view_append ext1 h)
  refine ⟨st ++ ext1, i, m1, st ++ ext1 ++ ext2, i, m2, _, a1, b1, ?_, ?_, ?_,
    toMsg_eq it q now doBit⟩
  · have := a2 []
    rw [toMsg_eq] at this
    simpa using this
  · have := b2 []
    rw [toMsg_eq] at this
    simpa using this
  · have := a2 ext2
    rw [toMsg_eq] at this
    exact this

/-- C18, on an example: the entry over the example store, rendered twice 10 seconds after it
was stored. -/
theorem toMsg_twice_witness :
    exampleItemRef.view exampleStore = some (exampleItem 30 0) ∧
    ∃ st1 i1 m1 st2 i2 m2 M,
      exampleItemRef.toMsg exampleStore exampleQuery { nanos := 10000000000, loc := 0 } false
        = some (st1, i1, m1) ∧
      i1.toMsg st1 exampleQuery { nanos := 10000000000, loc := 0 } false = some (st2, i2, m2) ∧
      m1.view st1 = some M ∧ m2.view st2 = some M := by
  obtain ⟨st1, i1, m1, st2, i2, m2, M, h1, h2, h3, h4, _, _⟩ :=
    toMsg_twice exampleItemRef exampleStore (exampleItem 30 0) exampleQuery
      { nanos := 10000000000, loc := 0 } false (by decide)
  exact ⟨by decide, st1, i1, m1, st2, i2, m2, M, h1, h2, h3, h4⟩

end Cache
